import Mathlib

/-!
# Verification of the hydra-eval-jobs orchestration layer

A shallow embedding of `src/hydra-eval-jobs.cc`: the worker process loop, the
per-slot handler protocol, and the shared frontier (todo/active/jobs/exc)
driven concurrently by `nrWorkers` handler threads.  Machine-checked theorems
settle the spec's claims about this program.

Conventions:
* attribute paths are dot-joined strings, exactly as in the C++ code;
* the shared state is embedded as an explicit record, handler threads as a
  labelled small-step transition function (`stepFn`), interleavings as lists
  of labels;
* the worker's evaluation of one path is the pure function `evalReply`
  (the claims about result contents presuppose a fixed, pure root
  expression, so every worker instance computes the same answer);
* `prec` and `foldedL` are history (ghost) variables recording which paths
  have had their response merged into `jobs` and which paths have been
  folded; they are never read by any step's guard, so the executable
  behaviour is exactly that of the C++ code.
-/

namespace HydraEval

/-! ## Values and the worker's evaluation of one attribute path

Embedding of the Nix values the worker can encounter
(`hydra-eval-jobs.cc` lines 173-231): a concrete derivation (with its
`system` attribute), an attribute set, `null`, a value of unsupported
shape, or a value whose forcing throws an `EvalError`. -/

inductive AttrValue where
  | job (drvPath : String) (system : String)
  | attrs (kids : List (String × AttrValue))
  | nullV
  | unsupported (shown : String)
  | throwsE (msg : String)

/-- A structured worker reply (the JSON line of lines 171-233): at most one
of `job`, `attrs`, `error`; the empty object (for `null` values) is `empty`. -/
inductive Reply where
  | job (drvPath : String)
  | attrs (names : List String)
  | empty
  | error (msg : String)
deriving DecidableEq, Repr

/-- Lexicographic comparison of character lists: the embedding of
`std::string::operator<` (UTF-8 byte order coincides with code-point
order). -/
def charsLt : List Char → List Char → Bool
  | _, [] => false
  | [], _ :: _ => true
  | a :: as, b :: bs => if a < b then true else if b < a then false else charsLt as bs

/-- Strict order on strings (`std::string::operator<`). -/
def strLt (a b : String) : Bool := charsLt a.data b.data

/-- The relation form of `strLt`. -/
def strLtP (a b : String) : Prop := strLt a b = true

instance (a b : String) : Decidable (strLtP a b) := by unfold strLtP; infer_instance

/-- Insert into a sorted, duplicate-free list of strings: the embedding of
`std::set<std::string>::insert` (the iteration order of `std::set` is the
sorted order, and `*begin()` is the least element). -/
def insSorted (x : String) : List String → List String
  | [] => [x]
  | y :: ys => if strLt x y then x :: y :: ys else if x = y then y :: ys else y :: insSorted x ys

/-- Legality of a child name: `name.find('.') != npos || name.find(' ') != npos`
is the *negation* of this predicate (line 210): a name is kept iff it contains neither a dot nor
a space character.  (Note: only the space character `' '`, not general
whitespace.) -/
def okName (n : String) : Bool := !(n.data.contains '.') && !(n.data.contains ' ')

/-- The names of an attribute set as the worker reports them (lines 205-217):
iterate in lexicographic order, skipping names which contain `'.'` or `' '`. -/
def filteredNames (kids : List (String × AttrValue)) : List String :=
  ((kids.map Prod.fst).foldr insSorted []).filter (fun n => okName n)

/-- First-match lookup of a child in an attribute set. -/
def lookupKid (n : String) : List (String × AttrValue) → Option AttrValue
  | [] => none
  | (m, v) :: rest => if m = n then some v else lookupKid n rest

/-- Split a character list at dots (the separator of attribute paths). -/
def splitDots (acc : List Char) : List Char → List (List Char)
  | [] => [acc.reverse]
  | c :: cs => if c = '.' then acc.reverse :: splitDots [] cs else splitDots (c :: acc) cs

/-- Tokenization as in `findAlongAttrPath`: split the dotted path, skipping empty
tokens (nix's `tokenizeString` drops empty tokens, so `""` resolves to the
root and `"p."` resolves like `"p"`). -/
def tokensOf (p : String) : List String :=
  ((splitDots [] p.data).map (fun l => String.mk l)).filter (fun seg => seg ≠ "")

/-- Walk an attribute path through the value tree (`findAlongAttrPath`).
Forcing a throwing value propagates its message; selecting from a non-set
or a missing attribute is an evaluation error. -/
def resolve : List String → AttrValue → Except String AttrValue
  | [], v => .ok v
  | n :: rest, v =>
    match v with
    | .throwsE msg => .error msg
    | .attrs kids =>
      match lookupKid n kids with
      | some c => resolve rest c
      | none => .error ("attribute not found: " ++ n)
    | _ => .error "expression does not match an attribute set"

/-- The worker's handling of one `do <path>` command (lines 173-231):
resolve the path, then reply `job` (derivations with a known `system`),
`attrs` (attribute sets, names filtered), the empty object (`null`),
or `error` (anything else, and every thrown `EvalError`). -/
def evalReply (t : AttrValue) (p : String) : Reply :=
  match resolve (tokensOf p) t with
  | .error msg => .error msg
  | .ok v =>
    match v with
    | .job d sys =>
      if sys = "unknown" then .error "derivation must have a 'system' attribute"
      else .job d
    | .attrs kids => .attrs (filteredNames kids)
    | .nullV => .empty
    | .unsupported sh => .error ("attribute is " ++ sh ++ ", which is not supported")
    | .throwsE msg => .error msg

/-- Child-path formation in the handler (line 370):
`(attrPath.empty() ? "" : attrPath + ".") + i`. -/
def joinPath (p n : String) : String := (if p = "" then "" else p ++ ".") ++ n

/-- The child paths the handler inserts into `todo` for one response
(lines 368-373): one per reported attribute name, dot-joined. -/
def childPaths (p : String) : Reply → List String
  | .attrs ns => ns.map (joinPath p)
  | _ => []

/-- An entry of the final `jobs` mapping: either a job descriptor
(line 365) or an error object (line 377). -/
inductive Entry where
  | jobE (drvPath : String)
  | errE (msg : String)
deriving DecidableEq, Repr

/-- The entry the handler records for a path, as a function of the worker's
reply (`none` for `attrs`/`empty` replies, which leave `jobs` untouched). -/
def entryFor (t : AttrValue) (p : String) : Option Entry :=
  match evalReply t p with
  | .job j => some (.jobE j)
  | .error e => some (.errE e)
  | _ => none

/-- Insert-or-assign into an association list kept sorted by key: the
embedding of `nlohmann::json`'s object assignment (`std::map`, whose
serialization order is the sorted key order). -/
def mapInsert (k : String) (v : Entry) : List (String × Entry) → List (String × Entry)
  | [] => [(k, v)]
  | (k2, v2) :: rest =>
    if strLt k k2 then (k, v) :: (k2, v2) :: rest
    else if k = k2 then (k, v) :: rest
    else (k2, v2) :: mapInsert k v rest

/-- Association-list lookup (sorted map access). -/
def lookupE (k : String) : List (String × Entry) → Option Entry
  | [] => none
  | (k2, v) :: rest => if k2 = k then some v else lookupE k rest

/-! ## The worker process loop (lines 159-243)

The loop writes `next`, reads a command, and either stops (`exit`), or
evaluates the requested path, writes the structured reply, and then breaks
if its measured peak RSS exceeds `maxMemorySize * 1024` (KiB).  After the
loop — on *either* break — it writes one final `restart` line.
The memory reading after each reply is an input (one `Nat` paired with
each command), since `getrusage` is outside the program. -/

/-- A line on a worker channel: the worker's readiness signal, its
self-restart signal, or a structured (JSON) record. -/
inductive Line where
  | next
  | restart
  | resp (r : Reply)
deriving DecidableEq, Repr

/-- A command the coordinator can send (lines 163-166). -/
inductive Cmd where
  | doCmd (p : String)
  | exitCmd
deriving DecidableEq, Repr

/-- The outbound line trace of one worker instance, as a function of the
commands it is fed (each `do` paired with the peak-RSS reading taken after
its reply) and the memory ceiling in MiB.  An empty command list leaves the
worker blocked after its `next` (no trailing `restart`). -/
def workerLoop (t : AttrValue) (limit : Nat) : List (Cmd × Nat) → List Line
  | [] => [.next]
  | (c, m) :: rest =>
    .next ::
      match c with
      | .exitCmd => [.restart]
      | .doCmd p =>
        .resp (evalReply t p) ::
          (if limit * 1024 < m then [.restart] else workerLoop t limit rest)

/-! ## The handler's two read sites (lines 326-333 and 354-378)

The handler reads its worker's channel at exactly two places: the readiness
check before claiming (where `restart` and `next` are recognized, and any
other line is parsed as a JSON worker-error and escalated), and the response
read after dispatching (where the line is fed straight to
`nlohmann::json::parse`, so the non-JSON control lines `next`/`restart`
raise a parse exception, caught by the outer handler and recorded as the
run's fatal error). -/

/-- Outcome of the readiness check (lines 326-333). -/
inductive ReadyOutcome where
  | proceed
  | respawn
  | fatalWorker (msg : String)
deriving DecidableEq, Repr

/-- Lines 326-333: `restart` means respawn (`pid = -1; continue`), `next`
means proceed to claim; anything else is parsed as a worker `error` record
and thrown as the fatal `worker error: ...`. -/
def handlerOnReady : Line → ReadyOutcome
  | .restart => .respawn
  | .next => .proceed
  | .resp r =>
    .fatalWorker
      (match r with
       | .error e => "worker error: " ++ e
       | _ => "worker error: (no error field)")

/-- Outcome of reading the response to a dispatched path (lines 357-358). -/
inductive RespOutcome where
  | folded (r : Reply)
  | fatalParse
deriving DecidableEq, Repr

/-- Line 358: the response line is given to `nlohmann::json::parse`; the
bare control lines `next` and `restart` are not valid JSON, so they raise a
parse error (the handler never treats a mid-dispatch `restart` as a
restart). -/
def handlerOnResponse : Line → RespOutcome
  | .resp r => .folded r
  | .next => .fatalParse
  | .restart => .fatalParse

/-! ## The per-slot session (handler loop composed with its workers)

One handler thread owns a succession of worker instances (numbered 0, 1, …).
`slotSteps` records the session events for a given sequence of claimed
paths (the frontier claims made by this slot): the handler dispatches a
path only after reading `next`; the worker always answers a `do` with its
structured reply before its memory check, so the line after a reply is
either `next` (continue with this instance) or `restart` (breach: the
handler respawns and the *next* path goes to the fresh instance).
`mem w k` is instance `w`'s peak-RSS reading after its `(k+1)`-th reply. -/

/-- An event of one slot's session; the `Nat` is the worker-instance
number. -/
inductive SEv where
  | spawn (w : Nat)
  | readNext (w : Nat)
  | dispatch (w : Nat) (p : String)
  | gotReply (w : Nat) (p : String) (r : Reply)
  | readRestart (w : Nat)
  | sendExit (w : Nat)
deriving DecidableEq, Repr

/-- Session events from the point where instance `w` has announced `next`
and `k` replies have been served by it. -/
def slotSteps (t : AttrValue) (limit : Nat) (mem : Nat → Nat → Nat) :
    List String → Nat → Nat → List SEv
  | [], w, _ => [.sendExit w]
  | p :: ps, w, k =>
    .dispatch w p :: .gotReply w p (evalReply t p) ::
      (if limit * 1024 < mem w k then
        .readRestart w :: .spawn (w + 1) :: .readNext (w + 1) ::
          slotSteps t limit mem ps (w + 1) 0
      else
        .readNext w :: slotSteps t limit mem ps w (k + 1))

/-- A whole slot session: spawn instance 0, read its `next`, then serve the
claimed paths. -/
def slotRun (t : AttrValue) (limit : Nat) (mem : Nat → Nat → Nat)
    (paths : List String) : List SEv :=
  .spawn 0 :: .readNext 0 :: slotSteps t limit mem paths 0 0

/-! ## The shared frontier and the concurrent handler threads (lines 274-408)

The shared state (`struct State`, lines 274-280) plus one state-machine
position per handler thread.  Each label is one atomic step of one thread:
* `claim i`  — the claim critical section (lines 338-352): if neither
  terminal condition holds and `todo` is non-empty, remove its least
  element and insert it into `active`;
* `finish i` — the terminal branch (lines 341-344): `todo` and `active`
  both empty, or `exc` set → send `exit`, thread returns;
* `respond i` — dispatch `do <path>` and read the structured reply
  (lines 354-358; the reply is the pure `evalReply`);
* `record i` — merge `job`/`error` fields of the response into `jobs`
  (lines 360-378);
* `fold i`  — the final critical section (lines 380-387): erase the path
  from `active`, insert the discovered children into `todo`, notify;
* `fail i`  — an exception escapes (worker EOF/malformed line at either
  read site, lines 326-333 / 358): the catch block (lines 389-393)
  stores it in `exc`.

`prec` (paths whose response has been recorded) and `foldedL` (fold
events, newest first) are history variables; no guard reads them. -/

/-- Position of one handler thread between its atomic steps. -/
inductive SlotState where
  | idle
  | claimed (p : String)
  | gotReply (p : String) (r : Reply)
  | recorded (p : String) (r : Reply)
  | done
  | failed
deriving DecidableEq, Repr

/-- The shared state, one record: `todo`, `active` (sorted, duplicate-free,
as `std::set`), the `jobs` mapping (sorted by key, as `nlohmann::json`'s
object = `std::map`), the fatal `exc` cell, the per-thread positions, and
the two history variables. -/
structure GState where
  todo : List String
  active : List String
  jobs : List (String × Entry)
  exc : Option String
  slots : List SlotState
  prec : List String
  foldedL : List String
deriving DecidableEq, Repr

/-- A step label: which thread moves, and (for `fail`) the error text. -/
inductive Label where
  | claim (i : Nat)
  | finish (i : Nat)
  | respond (i : Nat)
  | record (i : Nat)
  | fold (i : Nat)
  | fail (i : Nat) (e : String)
deriving DecidableEq, Repr

/-- Merging one response into `jobs` (lines 363-366 and 375-378): a `job`
field or an `error` field writes the path's entry; `attrs`-only and empty
responses leave `jobs` unchanged. -/
def recordEntry (p : String) (r : Reply) (jobs : List (String × Entry)) :
    List (String × Entry) :=
  match r with
  | .job j => mapInsert p (.jobE j) jobs
  | .error e => mapInsert p (.errE e) jobs
  | .attrs _ => jobs
  | .empty => jobs

/-- One atomic step of thread `i`; `none` when the step is not enabled in
`s` (the guard fails or the thread is elsewhere). -/
def stepFn (t : AttrValue) (s : GState) : Label → Option GState
  | .claim i =>
    match s.slots[i]? with
    | some .idle =>
      match s.exc with
      | some _ => none
      | none =>
        match s.todo with
        | [] => none
        | p :: rest =>
          some { s with
                  todo := rest
                  active := insSorted p s.active
                  slots := s.slots.set i (.claimed p) }
    | _ => none
  | .finish i =>
    match s.slots[i]? with
    | some .idle =>
      if (s.todo = [] ∧ s.active = []) ∨ s.exc ≠ none then
        some { s with slots := s.slots.set i .done }
      else none
    | _ => none
  | .respond i =>
    match s.slots[i]? with
    | some (.claimed p) =>
      some { s with slots := s.slots.set i (.gotReply p (evalReply t p)) }
    | _ => none
  | .record i =>
    match s.slots[i]? with
    | some (.gotReply p r) =>
      some { s with
              jobs := recordEntry p r s.jobs
              prec := insSorted p s.prec
              slots := s.slots.set i (.recorded p r) }
    | _ => none
  | .fold i =>
    match s.slots[i]? with
    | some (.recorded p r) =>
      some { s with
              active := s.active.erase p
              todo := (childPaths p r).foldl (fun td c => insSorted c td) s.todo
              foldedL := p :: s.foldedL
              slots := s.slots.set i .idle }
    | _ => none
  | .fail i e =>
    match s.slots[i]? with
    | some .idle => some { s with exc := some e, slots := s.slots.set i .failed }
    | some (.claimed _) => some { s with exc := some e, slots := s.slots.set i .failed }
    | _ => none

/-- Run a list of labels from a state; `none` as soon as a label is not
enabled. -/
def runFrom (t : AttrValue) (s : GState) : List Label → Option GState
  | [] => some s
  | l :: ls =>
    match stepFn t s l with
    | some s2 => runFrom t s2 ls
    | none => none

/-- The initial state (line 276: `todo{""}`; `n` handler threads,
lines 396-398). -/
def initState (n : Nat) : GState :=
  { todo := [""]
    active := []
    jobs := []
    exc := none
    slots := List.replicate n .idle
    prec := []
    foldedL := [] }

/-- All handler threads have returned cleanly. -/
def allDone (s : GState) : Prop := ∀ st ∈ s.slots, st = SlotState.done

instance (s : GState) : Decidable (allDone s) := by unfold allDone; infer_instance

/-- All handler threads have reached a terminal position (clean return or
exception). -/
def allTerminal (s : GState) : Prop :=
  ∀ st ∈ s.slots, st = SlotState.done ∨ st = SlotState.failed

instance (s : GState) : Decidable (allTerminal s) := by unfold allTerminal; infer_instance

/-- The driver's output (lines 403-408): rethrow the recorded exception if
any, otherwise print the `jobs` mapping (its serialization is determined by
the sorted association list). -/
def driverOutput (s : GState) : Except String (List (String × Entry)) :=
  match s.exc with
  | some e => .error e
  | none => .ok s.jobs

/-- The process exit code: `handleExceptions` returns non-zero iff an
exception reaches it (the rethrow at lines 405-406). -/
def exitCode (s : GState) : Nat :=
  match s.exc with
  | some _ => 1
  | none => 0

/-- How many more steps a thread at this position can take once `exc` is
set (a termination measure; `claim` is then disabled, so an idle thread's
only move is `finish`). -/
def slotMeasure : SlotState → Nat
  | .claimed _ => 4
  | .gotReply _ _ => 3
  | .recorded _ _ => 2
  | .idle => 1
  | .done => 0
  | .failed => 0

/-- Total remaining-step measure of a state with `exc` set. -/
def measureG (s : GState) : Nat := (s.slots.map slotMeasure).sum

/-- The path a thread position is working on, if any. -/
def pathOfSlot : SlotState → Option String
  | .claimed p => some p
  | .gotReply p _ => some p
  | .recorded p _ => some p
  | _ => none

/-- Thread `i` of the position list holds path `p` (claimed but not yet
folded). -/
def holdsL (sl : List SlotState) (i : Nat) (p : String) : Prop :=
  ∃ st, sl[i]? = some st ∧ pathOfSlot st = some p

/-- The root's expansion does not name the empty identifier.  (An attribute
set `{ "" = ...; }` at the root makes the handler re-insert the root path
`""` into `todo` forever, re-claiming paths that other threads still hold.) -/
def goodTree (t : AttrValue) : Prop :=
  ∀ ns, evalReply t "" = Reply.attrs ns → "" ∉ ns

/-! ## Reachability of attribute paths by `ChildNames` expansion

The set of paths the run can ever discover: the root, plus every dot-join
of a discovered path with one of the names its evaluation reports. -/

/-- Reachability: `Reach t p` holds when `p` is obtainable from the root by repeatedly expanding
`attrs` replies. -/
inductive Reach (t : AttrValue) : String → Prop where
  | root : Reach t ""
  | child {p : String} {ns : List String} {n : String} :
      Reach t p → evalReply t p = .attrs ns → n ∈ ns → Reach t (joinPath p n)

/-- The canonical result mapping: entries for a sorted list of paths. -/
def buildMap (t : AttrValue) (l : List String) : List (String × Entry) :=
  l.filterMap fun p => (entryFor t p).map fun e => (p, e)

/-! ## Protocol trace checkers

Boolean scanners over worker line traces and slot session events, used to
state the temporal claims about restarts. -/

/-- The worker-instance number of a session event. -/
def instOf : SEv → Nat
  | .spawn w => w
  | .readNext w => w
  | .dispatch w _ => w
  | .gotReply w _ _ => w
  | .readRestart w => w
  | .sendExit w => w

/-- Every `dispatch` in the list goes to an instance strictly above `b`. -/
def dispatchesAbove (b : Nat) : List SEv → Bool
  | [] => true
  | e :: rest =>
    (match e with
     | .dispatch w _ => decide (b < w)
     | _ => true) && dispatchesAbove b rest

/-- After every `readRestart w`, all later dispatches go to instances
strictly above `w` (the breached instance never receives another `do`). -/
def restartFresh : List SEv → Bool
  | [] => true
  | .readRestart w :: rest => dispatchesAbove w rest && restartFresh rest
  | _ :: rest => restartFresh rest

/-- Every `readRestart w` is immediately followed by `spawn (w+1)`: the
slot replaces the breached instance with a fresh one before anything else. -/
def spawnAfterRestart : List SEv → Bool
  | [] => true
  | .readRestart w :: rest =>
    (match rest with
     | .spawn w2 :: _ => decide (w2 = w + 1)
     | _ => false) && spawnAfterRestart rest
  | _ :: rest => spawnAfterRestart rest

/-- Every `dispatch w p` is immediately followed by the same instance's
structured reply for `p` (the in-flight job is always completed). -/
def dispatchAnswered (t : AttrValue) : List SEv → Bool
  | [] => true
  | .dispatch w p :: rest =>
    (match rest with
     | .gotReply w2 p2 r :: _ =>
       decide (w2 = w) && decide (p2 = p) && decide (r = evalReply t p)
     | _ => false) && dispatchAnswered t rest
  | _ :: rest => dispatchAnswered t rest

/-- Every `readRestart` is immediately preceded by a completed reply: the
handler reads `restart` only at the readiness check, never in place of a
response. -/
def restartAfterReply : List SEv → Bool
  | a :: b :: rest =>
    (match b with
     | .readRestart _ =>
       match a with
       | .gotReply _ _ _ => true
       | _ => false
     | _ => true) && restartAfterReply (b :: rest)
  | _ => true

/-- Checks that `restart` appears in a worker's line trace only as its very last line
(the single post-loop write at line 242). -/
def restartOnlyAtEnd : List Line → Bool
  | [] => true
  | [.restart] => true
  | .restart :: _ :: _ => false
  | _ :: rest => restartOnlyAtEnd rest

/-- A `do` command whose post-reply memory reading stays at or below the
ceiling. -/
def underLimit (limit : Nat) (q : Cmd × Nat) : Prop :=
  (∃ p, q.1 = Cmd.doCmd p) ∧ ¬ limit * 1024 < q.2

/-- The lines the worker writes while serving a list of commands that all
stay under the memory ceiling. -/
def linesOf (t : AttrValue) (pre : List (Cmd × Nat)) : List Line :=
  pre.flatMap fun q =>
    match q.1 with
    | Cmd.doCmd p => [Line.next, Line.resp (evalReply t p)]
    | Cmd.exitCmd => [Line.next, Line.restart]

/-- A `todo` entry is the root or a dot-join with a legal (filtered) name. -/
def okShape (q : String) : Prop :=
  q = "" ∨ ∃ par nm, okName nm = true ∧ q = joinPath par nm

/-! ## Concrete instances used for witnesses and counterexamples -/

/-- A root attribute set with a single job child `a`. -/
def tRoot : AttrValue := .attrs [("a", .job "d" "x86_64-linux")]

/-- A complete one-thread schedule for `tRoot`. -/
def trOne : List Label :=
  [.claim 0, .respond 0, .record 0, .fold 0,
   .claim 0, .respond 0, .record 0, .fold 0, .finish 0]

/-- The final state of the one-thread run on `tRoot`. -/
def sOne : GState := (runFrom tRoot (initState 1) trOne).getD (initState 0)

/-- A complete two-thread schedule for `tRoot` (thread 1 claims the child). -/
def trTwo : List Label :=
  [.claim 0, .respond 0, .record 0, .fold 0,
   .claim 1, .respond 1, .record 1, .fold 1, .finish 0, .finish 1]

/-- The final state of the two-thread run on `tRoot`. -/
def sTwo : GState := (runFrom tRoot (initState 2) trTwo).getD (initState 0)

/-- A root whose attribute set names the empty identifier (legal in Nix:
`{ "" = null; a = null; }`). -/
def tEmptyName : AttrValue := .attrs [("", .nullV), ("a", .nullV)]

/-- A two-thread schedule on `tEmptyName`: thread 0 folds the root twice
while thread 1 holds `"a"`. -/
def trEmptyName : List Label :=
  [.claim 0, .respond 0, .record 0, .fold 0,
   .claim 0, .claim 1, .respond 0, .record 0, .fold 0]

/-- The state reached by `trEmptyName`: `"a"` is in `todo` and in `active`
at the same time. -/
def sEmptyName : GState :=
  (runFrom tEmptyName (initState 2) trEmptyName).getD (initState 0)

/-- Scenario B of the spec: children `a` (a job), `b.bad` (illegal name),
`c` (an empty attribute set). -/
def tScenB : AttrValue :=
  .attrs [("a", .job "drvA" "sys"), ("b.bad", .job "drvB" "sys"), ("c", .attrs [])]

/-- A complete one-thread schedule for `tScenB` (root, then `a`, then `c`). -/
def trScenB : List Label :=
  [.claim 0, .respond 0, .record 0, .fold 0,
   .claim 0, .respond 0, .record 0, .fold 0,
   .claim 0, .respond 0, .record 0, .fold 0, .finish 0]

/-- The final state of the run on `tScenB`. -/
def sScenB : GState := (runFrom tScenB (initState 1) trScenB).getD (initState 0)

/-- A root with a tab character inside an attribute name. -/
def tTab : AttrValue := .attrs [("a\tb", .nullV)]

/-- A state with a recorded fatal error and one idle thread. -/
def sExc : GState :=
  { todo := ["x"]
    active := []
    jobs := []
    exc := some "boom"
    slots := [.idle]
    prec := []
    foldedL := [] }

/-- The state after thread 0 claimed the root of `tRoot`. -/
def sClaimed : GState :=
  (runFrom tRoot (initState 1) [.claim 0]).getD (initState 0)

/-- The state after the claimed dispatch fails (worker died mid-dispatch). -/
def sFailed : GState :=
  (stepFn tRoot sClaimed (.fail 0 "boom")).getD (initState 0)

/-- The state of a run on `tRoot` whose worker exited mid-dispatch with no
parseable response. -/
def sFail : GState :=
  (runFrom tRoot (initState 1)
    ([Label.claim 0] ++ Label.fail 0 "worker died" :: [])).getD (initState 0)

/-! ## The master invariant

Holds at every reachable state of every run (unconditionally, for every
attribute tree): everything ever placed in `todo`/`active`/`prec` is
reachable by `ChildNames` expansion; the root has been seen; recorded
paths are closed under child discovery once folded; in-flight replies are
the evaluation of their path; and `jobs` is exactly the canonical map of
the recorded paths. -/

structure InvG (t : AttrValue) (s : GState) : Prop where
  reach_todo : ∀ p ∈ s.todo, Reach t p
  reach_prec : ∀ p ∈ s.prec, Reach t p
  root_mem : "" ∈ s.todo ∨ "" ∈ s.active ∨ "" ∈ s.prec
  closure : ∀ p ∈ s.prec,
      (∀ (i : Nat) (r : Reply), s.slots[i]? ≠ some (SlotState.recorded p r)) →
      ∀ c ∈ childPaths p (evalReply t p), c ∈ s.todo ∨ c ∈ s.active ∨ c ∈ s.prec
  slot_claimed : ∀ (i : Nat) (p : String),
      s.slots[i]? = some (SlotState.claimed p) → Reach t p
  slot_got : ∀ (i : Nat) (p : String) (r : Reply),
      s.slots[i]? = some (SlotState.gotReply p r) → Reach t p ∧ r = evalReply t p
  slot_rec : ∀ (i : Nat) (p : String) (r : Reply),
      s.slots[i]? = some (SlotState.recorded p r) →
      Reach t p ∧ r = evalReply t p ∧ p ∈ s.prec
  prec_sorted : List.Sorted strLtP s.prec
  jobs_eq : s.jobs = buildMap t s.prec

/-- The disjointness invariant (valid for `goodTree` roots): `todo` and
`active` are sorted sets, mutually disjoint and disjoint from the folded
history; an in-flight thread's path is in `active` and no two threads hold
the same path; and every path ever seen is the root or the dot-join of a
folded parent with one of its reported child names. -/
structure InvD (t : AttrValue) (s : GState) : Prop where
  todo_sorted : List.Sorted strLtP s.todo
  active_sorted : List.Sorted strLtP s.active
  todo_active : ∀ p, ¬ (p ∈ s.todo ∧ p ∈ s.active)
  todo_folded : ∀ p, ¬ (p ∈ s.todo ∧ p ∈ s.foldedL)
  active_folded : ∀ p, ¬ (p ∈ s.active ∧ p ∈ s.foldedL)
  slot_active : ∀ (i : Nat) (p : String), holdsL s.slots i p → p ∈ s.active
  slot_distinct : ∀ (i j : Nat) (p q : String), i ≠ j →
      holdsL s.slots i p → holdsL s.slots j q → p ≠ q
  origin : ∀ p, (p ∈ s.todo ∨ p ∈ s.active ∨ p ∈ s.foldedL) →
      p = "" ∨ ∃ q m ns, q ∈ s.foldedL ∧ evalReply t q = Reply.attrs ns ∧
        m ∈ ns ∧ p = joinPath q m

/-! ## Order lemmas for the string comparison -/

theorem charsLt_irrefl (l : List Char) : charsLt l l = false := by
  induction l with
  | nil => rfl
  | cons a as ih => simp [charsLt, ih]

theorem charsLt_trichot (a b : List Char) :
    charsLt a b = true ∨ a = b ∨ charsLt b a = true := by
  induction a generalizing b with
  | nil => cases b with
    | nil => exact Or.inr (Or.inl rfl)
    | cons c cs => exact Or.inl rfl
  | cons c cs ih =>
    cases b with
    | nil => exact Or.inr (Or.inr rfl)
    | cons d ds =>
      rcases lt_trichotomy c d with h | h | h
      · exact Or.inl (by simp [charsLt, h])
      · subst h
        rcases ih ds with h2 | h2 | h2
        · exact Or.inl (by simp [charsLt, h2])
        · exact Or.inr (Or.inl (by rw [h2]))
        · exact Or.inr (Or.inr (by simp [charsLt, h2]))
      · exact Or.inr (Or.inr (by simp [charsLt, h]))

theorem charsLt_asymm {a b : List Char} (h : charsLt a b = true) :
    charsLt b a = false := by
  induction a generalizing b with
  | nil =>
    cases b with
    | nil => simp [charsLt] at h
    | cons d ds => rfl
  | cons c cs ih =>
    cases b with
    | nil => simp [charsLt] at h
    | cons d ds =>
      by_cases hcd : c < d
      · simp [charsLt, hcd, not_lt.mpr (le_of_lt hcd), ne_of_gt hcd]
      · by_cases hdc : d < c
        · simp [charsLt, hcd, hdc] at h
        · have hne : ¬ d < c := hdc
          simp only [charsLt, if_neg hcd, if_neg hdc] at h
          simp [charsLt, hcd, hne, ih h]

theorem charsLt_trans {a b c : List Char} (h1 : charsLt a b = true)
    (h2 : charsLt b c = true) : charsLt a c = true := by
  induction a generalizing b c with
  | nil =>
    cases c with
    | nil =>
      cases b with
      | nil => simp [charsLt] at h1
      | cons e es => simp [charsLt] at h2
    | cons f fs => rfl
  | cons x xs ih =>
    cases b with
    | nil => simp [charsLt] at h1
    | cons y ys =>
      cases c with
      | nil => simp [charsLt] at h2
      | cons z zs =>
        by_cases hxy : x < y
        · by_cases hyz : y < z
          · have hxz : x < z := lt_trans hxy hyz
            simp [charsLt, hxz]
          · by_cases hzy : z < y
            · simp [charsLt, hyz, hzy] at h2
            · have hyzeq : y = z := le_antisymm (not_lt.mp hzy) (not_lt.mp hyz)
              subst hyzeq
              simp [charsLt, hxy]
        · by_cases hyx : y < x
          · simp [charsLt, hxy, hyx] at h1
          · have hxyeq : x = y := le_antisymm (not_lt.mp hyx) (not_lt.mp hxy)
            subst hxyeq
            simp only [charsLt, if_neg hxy, if_neg hyx] at h1
            by_cases hyz : x < z
            · simp [charsLt, hyz]
            · by_cases hzy : z < x
              · simp [charsLt, hyz, hzy] at h2
              · simp only [charsLt, if_neg hyz, if_neg hzy] at h2 ⊢
                exact ih h1 h2

theorem strLt_irrefl (a : String) : strLt a a = false := charsLt_irrefl a.data

theorem strLt_trichot (a b : String) :
    strLt a b = true ∨ a = b ∨ strLt b a = true := by
  rcases charsLt_trichot a.data b.data with h | h | h
  · exact Or.inl h
  · refine Or.inr (Or.inl ?_)
    cases a with
    | mk da =>
      cases b with
      | mk db => exact congrArg String.mk h
  · exact Or.inr (Or.inr h)

theorem strLt_asymm {a b : String} (h : strLt a b = true) : strLt b a = false :=
  charsLt_asymm h

theorem strLt_trans {a b c : String} (h1 : strLt a b = true)
    (h2 : strLt b c = true) : strLt a c = true :=
  charsLt_trans h1 h2

theorem strLtP_ne {a b : String} (h : strLtP a b) : a ≠ b := by
  intro he
  subst he
  exact absurd h (by simp [strLtP, strLt_irrefl])

theorem strLt_of_not {a b : String} (h1 : strLt a b = false) (h2 : a ≠ b) :
    strLt b a = true := by
  rcases strLt_trichot a b with h | h | h
  · rw [h] at h1; cases h1
  · exact absurd h h2
  · exact h

/-! ## Lemmas about the sorted-set and sorted-map operations -/

theorem mem_insSorted {a x : String} {l : List String} :
    a ∈ insSorted x l ↔ a = x ∨ a ∈ l := by
  induction l with
  | nil => simp [insSorted]
  | cons y ys ih =>
    by_cases h1 : strLt x y
    · simp [insSorted, h1]
    · by_cases h2 : x = y
      · subst h2
        simp only [insSorted, if_neg h1, if_pos rfl]
        constructor
        · intro h; exact Or.inr h
        · rintro (rfl | h)
          · exact List.mem_cons_self _ _
          · exact h
      · simp only [insSorted, if_neg h1, if_neg h2, List.mem_cons, ih]
        tauto

theorem sorted_insSorted {x : String} {l : List String}
    (h : List.Sorted strLtP l) : List.Sorted strLtP (insSorted x l) := by
  induction l with
  | nil => simp [insSorted]
  | cons y ys ih =>
    rw [List.sorted_cons] at h
    obtain ⟨hy, hys⟩ := h
    by_cases h1 : strLt x y
    · rw [insSorted, if_pos h1, List.sorted_cons]
      refine ⟨?_, (List.sorted_cons).mpr ⟨hy, hys⟩⟩
      intro b hb
      rcases List.mem_cons.mp hb with rfl | hb
      · exact h1
      · exact strLt_trans h1 (hy b hb)
    · by_cases h2 : x = y
      · rw [insSorted, if_neg h1, if_pos h2, List.sorted_cons]
        exact ⟨hy, hys⟩
      · rw [insSorted, if_neg h1, if_neg h2, List.sorted_cons]
        refine ⟨?_, ih hys⟩
        intro b hb
        rcases mem_insSorted.mp hb with rfl | hb
        · exact strLt_of_not (by simpa using h1) h2
        · exact hy b hb

theorem nodup_of_sorted {l : List String} (h : List.Sorted strLtP l) :
    l.Nodup :=
  List.Pairwise.imp (fun hab => strLtP_ne hab) h

theorem sorted_eq_of_mem_iff {l1 l2 : List String}
    (h1 : List.Sorted strLtP l1) (h2 : List.Sorted strLtP l2)
    (h : ∀ x, x ∈ l1 ↔ x ∈ l2) : l1 = l2 := by
  induction l1 generalizing l2 with
  | nil =>
    cases l2 with
    | nil => rfl
    | cons b bs => exact absurd ((h b).mpr (List.mem_cons_self _ _)) (by simp)
  | cons a as ih =>
    cases l2 with
    | nil => exact absurd ((h a).mp (List.mem_cons_self _ _)) (by simp)
    | cons b bs =>
      rw [List.sorted_cons] at h1 h2
      obtain ⟨ha, has⟩ := h1
      obtain ⟨hb, hbs⟩ := h2
      have hab : a = b := by
        rcases List.mem_cons.mp ((h a).mp (List.mem_cons_self _ _)) with h3 | h3
        · exact h3
        · rcases List.mem_cons.mp ((h b).mpr (List.mem_cons_self _ _)) with h4 | h4
          · exact h4.symm
          · have h5 : strLt b a = true := hb a h3
            have h6 : strLt a b = true := ha b h4
            rw [strLt_asymm h6] at h5
            exact Bool.noConfusion h5
      subst hab
      have hmem : ∀ x, x ∈ as ↔ x ∈ bs := by
        intro x
        constructor
        · intro hx
          rcases List.mem_cons.mp ((h x).mp (List.mem_cons.mpr (Or.inr hx))) with h3 | h3
          · subst h3; exact absurd (ha x hx) (by simp [strLtP, strLt_irrefl])
          · exact h3
        · intro hx
          rcases List.mem_cons.mp ((h x).mpr (List.mem_cons.mpr (Or.inr hx))) with h3 | h3
          · subst h3; exact absurd (hb x hx) (by simp [strLtP, strLt_irrefl])
          · exact h3
      rw [ih has hbs hmem]

theorem mem_foldl_insSorted {q : String} {l td : List String} :
    q ∈ l.foldl (fun td c => insSorted c td) td ↔ q ∈ td ∨ q ∈ l := by
  induction l generalizing td with
  | nil => simp
  | cons c cs ih =>
    simp only [List.foldl_cons, ih, mem_insSorted, List.mem_cons]
    tauto

/-! ## Lemmas about the canonical result mapping -/

theorem key_mem_of_mem_buildMap {t : AttrValue} {p : String} {e : Entry}
    {l : List String} (h : (p, e) ∈ buildMap t l) :
    p ∈ l ∧ entryFor t p = some e := by
  rw [buildMap, List.mem_filterMap] at h
  obtain ⟨a, ha, he⟩ := h
  cases hae : entryFor t a with
  | none => rw [hae] at he; cases he
  | some v =>
    rw [hae] at he
    simp only [Option.map_some', Option.some_inj] at he
    obtain ⟨rfl, rfl⟩ := Prod.mk.injEq .. ▸ he
    exact ⟨ha, hae⟩

theorem lookupE_buildMap_of_not_mem {t : AttrValue} {p : String}
    {l : List String} (h : p ∉ l) : lookupE p (buildMap t l) = none := by
  induction l with
  | nil => rfl
  | cons q rest ih =>
    have hq : q ≠ p := fun he => h (he ▸ List.mem_cons_self _ _)
    have hrest : p ∉ rest := fun hm => h (List.mem_cons.mpr (Or.inr hm))
    cases hqe : entryFor t q with
    | none => simpa [buildMap, hqe] using ih hrest
    | some w =>
      simp only [buildMap, List.filterMap_cons, hqe, Option.map_some']
      rw [lookupE, if_neg hq]
      simpa [buildMap] using ih hrest

theorem lookupE_buildMap_of_mem {t : AttrValue} {p : String}
    {l : List String} (hs : List.Sorted strLtP l) (h : p ∈ l) :
    lookupE p (buildMap t l) = entryFor t p := by
  induction l with
  | nil => cases h
  | cons q rest ih =>
    rw [List.sorted_cons] at hs
    obtain ⟨hq, hrest⟩ := hs
    by_cases hpq : p = q
    · subst hpq
      have hnot : p ∉ rest := fun hm =>
        absurd (hq p hm) (by simp [strLtP, strLt_irrefl])
      cases hqe : entryFor t p with
      | none => simpa [buildMap, hqe] using lookupE_buildMap_of_not_mem hnot
      | some w =>
        simp only [buildMap, List.filterMap_cons, hqe, Option.map_some']
        rw [lookupE, if_pos rfl]
    · have hmem : p ∈ rest := by
        rcases List.mem_cons.mp h with h1 | h1
        · exact absurd h1 hpq
        · exact h1
      cases hqe : entryFor t q with
      | none => simpa [buildMap, hqe] using ih hrest hmem
      | some w =>
        simp only [buildMap, List.filterMap_cons, hqe, Option.map_some']
        rw [lookupE, if_neg (fun he => hpq he.symm)]
        simpa [buildMap] using ih hrest hmem

theorem mapInsert_front {p : String} {v : Entry} {m : List (String × Entry)}
    (h : ∀ k e, (k, e) ∈ m → strLt p k = true) :
    mapInsert p v m = (p, v) :: m := by
  cases m with
  | nil => rfl
  | cons kv rest =>
    obtain ⟨k2, v2⟩ := kv
    rw [mapInsert, if_pos (h k2 v2 (List.mem_cons_self _ _))]

theorem buildMap_insSorted_some {t : AttrValue} {p : String} {v : Entry}
    {l : List String} (hs : List.Sorted strLtP l)
    (he : entryFor t p = some v) :
    buildMap t (insSorted p l) = mapInsert p v (buildMap t l) := by
  induction l with
  | nil => simp [insSorted, buildMap, he, mapInsert]
  | cons q rest ih =>
    rw [List.sorted_cons] at hs
    obtain ⟨hq, hrest⟩ := hs
    by_cases h1 : strLt p q
    · rw [insSorted, if_pos h1]
      cases hqe : entryFor t q with
      | some w =>
        simp only [buildMap, List.filterMap_cons, he, hqe, Option.map_some']
        rw [mapInsert, if_pos h1]
      | none =>
        simp only [buildMap, List.filterMap_cons, he, hqe, Option.map_some']
        rw [mapInsert_front]
        intro k e hke
        have hk := (key_mem_of_mem_buildMap hke).1
        exact strLt_trans h1 (hq k hk)
    · by_cases h2 : p = q
      · subst h2
        rw [insSorted, if_neg h1, if_pos rfl]
        simp only [buildMap, List.filterMap_cons, he, Option.map_some']
        rw [mapInsert, if_neg (by rw [strLt_irrefl]; simp), if_pos rfl]
      · rw [insSorted, if_neg h1, if_neg h2]
        cases hqe : entryFor t q with
        | some w =>
          simp only [buildMap, List.filterMap_cons, hqe, Option.map_some']
          rw [mapInsert, if_neg h1, if_neg h2]
          congr 1
          simpa [buildMap] using ih hrest
        | none =>
          simp only [buildMap, List.filterMap_cons, hqe]
          simpa [buildMap] using ih hrest

theorem buildMap_insSorted_none {t : AttrValue} {p : String}
    {l : List String} (he : entryFor t p = none) :
    buildMap t (insSorted p l) = buildMap t l := by
  induction l with
  | nil => simp [insSorted, buildMap, he]
  | cons q rest ih =>
    by_cases h1 : strLt p q
    · rw [insSorted, if_pos h1]
      simp [buildMap, List.filterMap_cons, he]
    · by_cases h2 : p = q
      · rw [insSorted, if_neg h1, if_pos h2]
      · rw [insSorted, if_neg h1, if_neg h2]
        cases hqe : entryFor t q with
        | some w =>
          simp only [buildMap, List.filterMap_cons, hqe, Option.map_some']
          congr 1
        | none =>
          simp only [buildMap, List.filterMap_cons, hqe]
          simpa [buildMap] using ih

/-! ## Elimination lemmas: what each enabled step tells us -/

theorem step_claim_eq {t : AttrValue} {s s2 : GState} {i : Nat}
    (hs : stepFn t s (.claim i) = some s2) :
    ∃ p rest, s.slots[i]? = some .idle ∧ s.exc = none ∧ s.todo = p :: rest ∧
      s2 = { s with
              todo := rest
              active := insSorted p s.active
              slots := s.slots.set i (.claimed p) } := by
  rw [stepFn] at hs
  cases hslot : s.slots[i]? with
  | none => rw [hslot] at hs; cases hs
  | some st =>
    rw [hslot] at hs
    cases st with
    | idle =>
      cases hexc : s.exc with
      | some e => rw [hexc] at hs; cases hs
      | none =>
        rw [hexc] at hs
        cases htodo : s.todo with
        | nil => rw [htodo] at hs; cases hs
        | cons p rest =>
          rw [htodo] at hs
          exact ⟨p, rest, rfl, rfl, rfl, (Option.some.inj hs).symm⟩
    | claimed p => cases hs
    | gotReply p r => cases hs
    | recorded p r => cases hs
    | done => cases hs
    | failed => cases hs

theorem step_finish_eq {t : AttrValue} {s s2 : GState} {i : Nat}
    (hs : stepFn t s (.finish i) = some s2) :
    s.slots[i]? = some .idle ∧ ((s.todo = [] ∧ s.active = []) ∨ s.exc ≠ none) ∧
      s2 = { s with slots := s.slots.set i .done } := by
  rw [stepFn] at hs
  cases hslot : s.slots[i]? with
  | none => rw [hslot] at hs; cases hs
  | some st =>
    rw [hslot] at hs
    cases st with
    | idle =>
      by_cases hc : (s.todo = [] ∧ s.active = []) ∨ s.exc ≠ none
      · rw [if_pos hc] at hs
        exact ⟨rfl, hc, (Option.some.inj hs).symm⟩
      · rw [if_neg hc] at hs; cases hs
    | claimed p => cases hs
    | gotReply p r => cases hs
    | recorded p r => cases hs
    | done => cases hs
    | failed => cases hs

theorem step_respond_eq {t : AttrValue} {s s2 : GState} {i : Nat}
    (hs : stepFn t s (.respond i) = some s2) :
    ∃ p, s.slots[i]? = some (.claimed p) ∧
      s2 = { s with slots := s.slots.set i (.gotReply p (evalReply t p)) } := by
  rw [stepFn] at hs
  cases hslot : s.slots[i]? with
  | none => rw [hslot] at hs; cases hs
  | some st =>
    rw [hslot] at hs
    cases st with
    | idle => cases hs
    | claimed p => exact ⟨p, rfl, (Option.some.inj hs).symm⟩
    | gotReply p r => cases hs
    | recorded p r => cases hs
    | done => cases hs
    | failed => cases hs

theorem step_record_eq {t : AttrValue} {s s2 : GState} {i : Nat}
    (hs : stepFn t s (.record i) = some s2) :
    ∃ p r, s.slots[i]? = some (.gotReply p r) ∧
      s2 = { s with
              jobs := recordEntry p r s.jobs
              prec := insSorted p s.prec
              slots := s.slots.set i (.recorded p r) } := by
  rw [stepFn] at hs
  cases hslot : s.slots[i]? with
  | none => rw [hslot] at hs; cases hs
  | some st =>
    rw [hslot] at hs
    cases st with
    | idle => cases hs
    | claimed p => cases hs
    | gotReply p r => exact ⟨p, r, rfl, (Option.some.inj hs).symm⟩
    | recorded p r => cases hs
    | done => cases hs
    | failed => cases hs

theorem step_fold_eq {t : AttrValue} {s s2 : GState} {i : Nat}
    (hs : stepFn t s (.fold i) = some s2) :
    ∃ p r, s.slots[i]? = some (.recorded p r) ∧
      s2 = { s with
              active := s.active.erase p
              todo := (childPaths p r).foldl (fun td c => insSorted c td) s.todo
              foldedL := p :: s.foldedL
              slots := s.slots.set i .idle } := by
  rw [stepFn] at hs
  cases hslot : s.slots[i]? with
  | none => rw [hslot] at hs; cases hs
  | some st =>
    rw [hslot] at hs
    cases st with
    | idle => cases hs
    | claimed p => cases hs
    | gotReply p r => cases hs
    | recorded p r => exact ⟨p, r, rfl, (Option.some.inj hs).symm⟩
    | done => cases hs
    | failed => cases hs

theorem step_fail_eq {t : AttrValue} {s s2 : GState} {i : Nat} {e : String}
    (hs : stepFn t s (.fail i e) = some s2) :
    (s.slots[i]? = some .idle ∨ ∃ p, s.slots[i]? = some (.claimed p)) ∧
      s2 = { s with exc := some e, slots := s.slots.set i .failed } := by
  rw [stepFn] at hs
  cases hslot : s.slots[i]? with
  | none => rw [hslot] at hs; cases hs
  | some st =>
    rw [hslot] at hs
    cases st with
    | idle => exact ⟨Or.inl rfl, (Option.some.inj hs).symm⟩
    | claimed p => exact ⟨Or.inr ⟨p, rfl⟩, (Option.some.inj hs).symm⟩
    | gotReply p r => cases hs
    | recorded p r => cases hs
    | done => cases hs
    | failed => cases hs

/-! ## Generic step properties -/

theorem getElem?_set_same {l : List SlotState} {i : Nat} {a b : SlotState}
    (h : l[i]? = some a) : (l.set i b)[i]? = some b := by
  have hlen : i < l.length := (List.getElem?_eq_some_iff.mp h).1
  rw [List.getElem?_set]
  simp [hlen]

theorem step_slots_length {t : AttrValue} {s s2 : GState} {l : Label}
    (hs : stepFn t s l = some s2) : s2.slots.length = s.slots.length := by
  cases l with
  | claim i =>
    obtain ⟨p, rest, _, _, _, rfl⟩ := step_claim_eq hs
    exact List.length_set ..
  | finish i =>
    obtain ⟨_, _, rfl⟩ := step_finish_eq hs
    exact List.length_set ..
  | respond i =>
    obtain ⟨p, _, rfl⟩ := step_respond_eq hs
    exact List.length_set ..
  | record i =>
    obtain ⟨p, r, _, rfl⟩ := step_record_eq hs
    exact List.length_set ..
  | fold i =>
    obtain ⟨p, r, _, rfl⟩ := step_fold_eq hs
    exact List.length_set ..
  | fail i e =>
    obtain ⟨_, rfl⟩ := step_fail_eq hs
    exact List.length_set ..

theorem step_exc_mono {t : AttrValue} {s s2 : GState} {l : Label}
    (hs : stepFn t s l = some s2) (h : s.exc ≠ none) : s2.exc ≠ none := by
  cases l with
  | claim i =>
    obtain ⟨p, rest, _, hexc, _, rfl⟩ := step_claim_eq hs
    exact absurd hexc h
  | finish i =>
    obtain ⟨_, _, rfl⟩ := step_finish_eq hs
    exact h
  | respond i =>
    obtain ⟨p, _, rfl⟩ := step_respond_eq hs
    exact h
  | record i =>
    obtain ⟨p, r, _, rfl⟩ := step_record_eq hs
    exact h
  | fold i =>
    obtain ⟨p, r, _, rfl⟩ := step_fold_eq hs
    exact h
  | fail i e =>
    obtain ⟨_, rfl⟩ := step_fail_eq hs
    simp

theorem run_exc_mono {t : AttrValue} {s s2 : GState} {tr : List Label}
    (hs : runFrom t s tr = some s2) (h : s.exc ≠ none) : s2.exc ≠ none := by
  induction tr generalizing s with
  | nil => cases hs; exact h
  | cons l ls ih =>
    rw [runFrom] at hs
    cases hstep : stepFn t s l with
    | none => rw [hstep] at hs; cases hs
    | some s3 =>
      rw [hstep] at hs
      exact ih hs (step_exc_mono hstep h)

theorem run_slots_length {t : AttrValue} {s s2 : GState} {tr : List Label}
    (hs : runFrom t s tr = some s2) : s2.slots.length = s.slots.length := by
  induction tr generalizing s with
  | nil => cases hs; rfl
  | cons l ls ih =>
    rw [runFrom] at hs
    cases hstep : stepFn t s l with
    | none => rw [hstep] at hs; cases hs
    | some s3 =>
      rw [hstep] at hs
      rw [ih hs, step_slots_length hstep]

theorem runFrom_append {t : AttrValue} {s : GState} {tr1 tr2 : List Label} :
    runFrom t s (tr1 ++ tr2)
      = (runFrom t s tr1).bind (fun s2 => runFrom t s2 tr2) := by
  induction tr1 generalizing s with
  | nil => rfl
  | cons l ls ih =>
    rw [List.cons_append, runFrom, runFrom]
    cases stepFn t s l with
    | none => rfl
    | some s3 => exact ih

theorem slots_set_cases {l : List SlotState} {i j : Nat} {a b st : SlotState}
    (hi : l[i]? = some a) (h : (l.set i b)[j]? = some st) :
    (j = i ∧ st = b) ∨ (j ≠ i ∧ l[j]? = some st) := by
  by_cases hij : j = i
  · subst hij
    rw [getElem?_set_same hi] at h
    exact Or.inl ⟨rfl, (Option.some.inj h).symm⟩
  · rw [List.getElem?_set_ne (fun he => hij he.symm)] at h
    exact Or.inr ⟨hij, h⟩


theorem inv_initState {t : AttrValue} {n : Nat} : InvG t (initState n) := by
  refine ⟨?_, ?_, ?_, ?_, ?_, ?_, ?_, ?_, ?_⟩
  · intro p hp
    simp only [initState, List.mem_singleton] at hp
    subst hp
    exact Reach.root
  · intro p hp; cases hp
  · exact Or.inl (List.mem_singleton.mpr rfl)
  · intro p hp; cases hp
  · intro i p h
    rcases List.getElem?_eq_some_iff.mp h with ⟨hlen, hget⟩
    simp only [initState, List.getElem_replicate] at hget
    cases hget
  · intro i p r h
    rcases List.getElem?_eq_some_iff.mp h with ⟨hlen, hget⟩
    simp only [initState, List.getElem_replicate] at hget
    cases hget
  · intro i p r h
    rcases List.getElem?_eq_some_iff.mp h with ⟨hlen, hget⟩
    simp only [initState, List.getElem_replicate] at hget
    cases hget
  · exact List.sorted_nil
  · rfl

theorem inv_claim {t : AttrValue} {s s2 : GState} {i : Nat} (hv : InvG t s)
    (hs : stepFn t s (.claim i) = some s2) : InvG t s2 := by
  obtain ⟨p, rest, hslot, hexc, htodo, rfl⟩ := step_claim_eq hs
  have hpR : Reach t p := hv.reach_todo p (by rw [htodo]; exact List.mem_cons_self _ _)
  refine ⟨?_, hv.reach_prec, ?_, ?_, ?_, ?_, ?_, hv.prec_sorted, hv.jobs_eq⟩
  · intro q hq
    exact hv.reach_todo q (by rw [htodo]; exact List.mem_cons.mpr (Or.inr hq))
  · rcases hv.root_mem with h | h | h
    · rw [htodo] at h
      rcases List.mem_cons.mp h with rfl | h
      · exact Or.inr (Or.inl (mem_insSorted.mpr (Or.inl rfl)))
      · exact Or.inl h
    · exact Or.inr (Or.inl (mem_insSorted.mpr (Or.inr h)))
    · exact Or.inr (Or.inr h)
  · intro q hq hnorec c hc
    have hnorec2 : ∀ (j : Nat) (r : Reply), s.slots[j]? ≠ some (SlotState.recorded q r) := by
      intro j r hj
      by_cases hij : j = i
      · subst hij; rw [hslot] at hj; cases hj
      · exact hnorec j r (by rw [List.getElem?_set_ne (fun he => hij he.symm)]; exact hj)
    rcases hv.closure q hq hnorec2 c hc with h | h | h
    · rw [htodo] at h
      rcases List.mem_cons.mp h with rfl | h
      · exact Or.inr (Or.inl (mem_insSorted.mpr (Or.inl rfl)))
      · exact Or.inl h
    · exact Or.inr (Or.inl (mem_insSorted.mpr (Or.inr h)))
    · exact Or.inr (Or.inr h)
  · intro j q hj
    rcases slots_set_cases hslot hj with ⟨rfl, h2⟩ | ⟨hne, h2⟩
    · cases h2; exact hpR
    · exact hv.slot_claimed j q h2
  · intro j q r hj
    rcases slots_set_cases hslot hj with ⟨rfl, h2⟩ | ⟨hne, h2⟩
    · cases h2
    · exact hv.slot_got j q r h2
  · intro j q r hj
    rcases slots_set_cases hslot hj with ⟨rfl, h2⟩ | ⟨hne, h2⟩
    · cases h2
    · exact hv.slot_rec j q r h2

theorem inv_finish {t : AttrValue} {s s2 : GState} {i : Nat} (hv : InvG t s)
    (hs : stepFn t s (.finish i) = some s2) : InvG t s2 := by
  obtain ⟨hslot, _, rfl⟩ := step_finish_eq hs
  refine ⟨hv.reach_todo, hv.reach_prec, hv.root_mem, ?_, ?_, ?_, ?_,
    hv.prec_sorted, hv.jobs_eq⟩
  · intro q hq hnorec c hc
    have hnorec2 : ∀ (j : Nat) (r : Reply), s.slots[j]? ≠ some (SlotState.recorded q r) := by
      intro j r hj
      by_cases hij : j = i
      · subst hij; rw [hslot] at hj; cases hj
      · exact hnorec j r (by rw [List.getElem?_set_ne (fun he => hij he.symm)]; exact hj)
    exact hv.closure q hq hnorec2 c hc
  · intro j q hj
    rcases slots_set_cases hslot hj with ⟨rfl, h2⟩ | ⟨hne, h2⟩
    · cases h2
    · exact hv.slot_claimed j q h2
  · intro j q r hj
    rcases slots_set_cases hslot hj with ⟨rfl, h2⟩ | ⟨hne, h2⟩
    · cases h2
    · exact hv.slot_got j q r h2
  · intro j q r hj
    rcases slots_set_cases hslot hj with ⟨rfl, h2⟩ | ⟨hne, h2⟩
    · cases h2
    · exact hv.slot_rec j q r h2

theorem inv_respond {t : AttrValue} {s s2 : GState} {i : Nat} (hv : InvG t s)
    (hs : stepFn t s (.respond i) = some s2) : InvG t s2 := by
  obtain ⟨p, hslot, rfl⟩ := step_respond_eq hs
  have hpR : Reach t p := hv.slot_claimed i p hslot
  refine ⟨hv.reach_todo, hv.reach_prec, hv.root_mem, ?_, ?_, ?_, ?_,
    hv.prec_sorted, hv.jobs_eq⟩
  · intro q hq hnorec c hc
    have hnorec2 : ∀ (j : Nat) (r : Reply), s.slots[j]? ≠ some (SlotState.recorded q r) := by
      intro j r hj
      by_cases hij : j = i
      · subst hij; rw [hslot] at hj; cases hj
      · exact hnorec j r (by rw [List.getElem?_set_ne (fun he => hij he.symm)]; exact hj)
    exact hv.closure q hq hnorec2 c hc
  · intro j q hj
    rcases slots_set_cases hslot hj with ⟨rfl, h2⟩ | ⟨hne, h2⟩
    · cases h2
    · exact hv.slot_claimed j q h2
  · intro j q r hj
    rcases slots_set_cases hslot hj with ⟨rfl, h2⟩ | ⟨hne, h2⟩
    · cases h2; exact ⟨hpR, rfl⟩
    · exact hv.slot_got j q r h2
  · intro j q r hj
    rcases slots_set_cases hslot hj with ⟨rfl, h2⟩ | ⟨hne, h2⟩
    · cases h2
    · exact hv.slot_rec j q r h2

theorem inv_record {t : AttrValue} {s s2 : GState} {i : Nat} (hv : InvG t s)
    (hs : stepFn t s (.record i) = some s2) : InvG t s2 := by
  obtain ⟨p, r, hslot, rfl⟩ := step_record_eq hs
  obtain ⟨hpR, hrEq⟩ := hv.slot_got i p r hslot
  refine ⟨hv.reach_todo, ?_, ?_, ?_, ?_, ?_, ?_, ?_, ?_⟩
  · intro q hq
    rcases mem_insSorted.mp hq with rfl | hq
    · exact hpR
    · exact hv.reach_prec q hq
  · rcases hv.root_mem with h | h | h
    · exact Or.inl h
    · exact Or.inr (Or.inl h)
    · exact Or.inr (Or.inr (mem_insSorted.mpr (Or.inr h)))
  · intro q hq hnorec c hc
    by_cases hqp : q = p
    · subst hqp
      exact absurd (getElem?_set_same hslot) (hnorec i r)
    · have hqmem : q ∈ s.prec := by
        rcases mem_insSorted.mp hq with rfl | h
        · exact absurd rfl hqp
        · exact h
      have hnorec2 : ∀ (j : Nat) (r2 : Reply), s.slots[j]? ≠ some (SlotState.recorded q r2) := by
        intro j r2 hj
        by_cases hij : j = i
        · subst hij; rw [hslot] at hj; cases hj
        · exact hnorec j r2 (by rw [List.getElem?_set_ne (fun he => hij he.symm)]; exact hj)
      rcases hv.closure q hqmem hnorec2 c hc with h | h | h
      · exact Or.inl h
      · exact Or.inr (Or.inl h)
      · exact Or.inr (Or.inr (mem_insSorted.mpr (Or.inr h)))
  · intro j q hj
    rcases slots_set_cases hslot hj with ⟨rfl, h2⟩ | ⟨hne, h2⟩
    · cases h2
    · exact hv.slot_claimed j q h2
  · intro j q r2 hj
    rcases slots_set_cases hslot hj with ⟨rfl, h2⟩ | ⟨hne, h2⟩
    · cases h2
    · exact hv.slot_got j q r2 h2
  · intro j q r2 hj
    rcases slots_set_cases hslot hj with ⟨rfl, h2⟩ | ⟨hne, h2⟩
    · cases h2
      exact ⟨hpR, hrEq, mem_insSorted.mpr (Or.inl rfl)⟩
    · obtain ⟨h3, h4, h5⟩ := hv.slot_rec j q r2 h2
      exact ⟨h3, h4, mem_insSorted.mpr (Or.inr h5)⟩
  · exact sorted_insSorted hv.prec_sorted
  · show recordEntry p r s.jobs = buildMap t (insSorted p s.prec)
    subst hrEq
    rw [hv.jobs_eq]
    cases hre : evalReply t p with
    | job j =>
      rw [recordEntry, buildMap_insSorted_some hv.prec_sorted (by rw [entryFor, hre])]
    | error e =>
      rw [recordEntry, buildMap_insSorted_some hv.prec_sorted (by rw [entryFor, hre])]
    | attrs ns =>
      rw [recordEntry, buildMap_insSorted_none (by rw [entryFor, hre])]
    | empty =>
      rw [recordEntry, buildMap_insSorted_none (by rw [entryFor, hre])]

theorem inv_fold {t : AttrValue} {s s2 : GState} {i : Nat} (hv : InvG t s)
    (hs : stepFn t s (.fold i) = some s2) : InvG t s2 := by
  obtain ⟨p, r, hslot, rfl⟩ := step_fold_eq hs
  obtain ⟨hpR, hrEq, hpPrec⟩ := hv.slot_rec i p r hslot
  refine ⟨?_, hv.reach_prec, ?_, ?_, ?_, ?_, ?_, hv.prec_sorted, hv.jobs_eq⟩
  · intro q hq
    rcases mem_foldl_insSorted.mp hq with hq | hq
    · exact hv.reach_todo q hq
    · subst hrEq
      cases hre : evalReply t p with
      | attrs ns =>
        rw [hre] at hq
        simp only [childPaths, List.mem_map] at hq
        obtain ⟨n, hn, rfl⟩ := hq
        exact Reach.child hpR hre hn
      | job j => rw [hre] at hq; simp [childPaths] at hq
      | empty => rw [hre] at hq; simp [childPaths] at hq
      | error e => rw [hre] at hq; simp [childPaths] at hq
  · rcases hv.root_mem with h | h | h
    · exact Or.inl (mem_foldl_insSorted.mpr (Or.inl h))
    · by_cases hp : "" = p
      · exact Or.inr (Or.inr (hp ▸ hpPrec))
      · exact Or.inr (Or.inl ((List.mem_erase_of_ne hp).mpr h))
    · exact Or.inr (Or.inr h)
  · intro q hq hnorec c hc
    by_cases hqp : q = p
    · subst hqp
      left
      apply mem_foldl_insSorted.mpr
      right
      rw [hrEq]
      exact hc
    · have hnorec2 : ∀ (j : Nat) (r2 : Reply), s.slots[j]? ≠ some (SlotState.recorded q r2) := by
        intro j r2 hj
        by_cases hij : j = i
        · subst hij
          rw [hslot] at hj
          have h3 := Option.some.inj hj
          injection h3 with h4 h5
          exact hqp h4.symm
        · exact hnorec j r2 (by rw [List.getElem?_set_ne (fun he => hij he.symm)]; exact hj)
      rcases hv.closure q hq hnorec2 c hc with h | h | h
      · exact Or.inl (mem_foldl_insSorted.mpr (Or.inl h))
      · by_cases hcp : c = p
        · exact Or.inr (Or.inr (hcp ▸ hpPrec))
        · exact Or.inr (Or.inl ((List.mem_erase_of_ne hcp).mpr h))
      · exact Or.inr (Or.inr h)
  · intro j q hj
    rcases slots_set_cases hslot hj with ⟨rfl, h2⟩ | ⟨hne, h2⟩
    · cases h2
    · exact hv.slot_claimed j q h2
  · intro j q r2 hj
    rcases slots_set_cases hslot hj with ⟨rfl, h2⟩ | ⟨hne, h2⟩
    · cases h2
    · exact hv.slot_got j q r2 h2
  · intro j q r2 hj
    rcases slots_set_cases hslot hj with ⟨rfl, h2⟩ | ⟨hne, h2⟩
    · cases h2
    · exact hv.slot_rec j q r2 h2

theorem inv_fail {t : AttrValue} {s s2 : GState} {i : Nat} {e : String}
    (hv : InvG t s) (hs : stepFn t s (.fail i e) = some s2) : InvG t s2 := by
  obtain ⟨hslot, rfl⟩ := step_fail_eq hs
  have hsome : ∃ a, s.slots[i]? = some a := by
    rcases hslot with h | ⟨p, h⟩
    · exact ⟨_, h⟩
    · exact ⟨_, h⟩
  obtain ⟨a, ha⟩ := hsome
  refine ⟨hv.reach_todo, hv.reach_prec, hv.root_mem, ?_, ?_, ?_, ?_,
    hv.prec_sorted, hv.jobs_eq⟩
  · intro q hq hnorec c hc
    have hnorec2 : ∀ (j : Nat) (r : Reply), s.slots[j]? ≠ some (SlotState.recorded q r) := by
      intro j r hj
      by_cases hij : j = i
      · subst hij
        rcases hslot with h | ⟨p, h⟩
        · rw [h] at hj; cases hj
        · rw [h] at hj; cases hj
      · exact hnorec j r (by rw [List.getElem?_set_ne (fun he => hij he.symm)]; exact hj)
    exact hv.closure q hq hnorec2 c hc
  · intro j q hj
    rcases slots_set_cases ha hj with ⟨rfl, h2⟩ | ⟨hne, h2⟩
    · cases h2
    · exact hv.slot_claimed j q h2
  · intro j q r hj
    rcases slots_set_cases ha hj with ⟨rfl, h2⟩ | ⟨hne, h2⟩
    · cases h2
    · exact hv.slot_got j q r h2
  · intro j q r hj
    rcases slots_set_cases ha hj with ⟨rfl, h2⟩ | ⟨hne, h2⟩
    · cases h2
    · exact hv.slot_rec j q r h2

theorem inv_step {t : AttrValue} {s s2 : GState} {l : Label} (hv : InvG t s)
    (hs : stepFn t s l = some s2) : InvG t s2 := by
  cases l with
  | claim i => exact inv_claim hv hs
  | finish i => exact inv_finish hv hs
  | respond i => exact inv_respond hv hs
  | record i => exact inv_record hv hs
  | fold i => exact inv_fold hv hs
  | fail i e => exact inv_fail hv hs

theorem inv_run {t : AttrValue} {s s2 : GState} {tr : List Label} (hv : InvG t s)
    (hs : runFrom t s tr = some s2) : InvG t s2 := by
  induction tr generalizing s with
  | nil => cases hs; exact hv
  | cons l ls ih =>
    rw [runFrom] at hs
    cases hstep : stepFn t s l with
    | none => rw [hstep] at hs; cases hs
    | some s3 =>
      rw [hstep] at hs
      exact ih (inv_step hv hstep) hs

/-! ## Terminal-state analysis

A run that ends with every thread `done` and no recorded exception must
have drained the frontier completely: its last step is necessarily the
`finish` of the last thread, whose guard observed `todo` and `active`
empty; and after that nothing changed them. -/

theorem mem_of_slot {l : List SlotState} {i : Nat} {a : SlotState}
    (h : l[i]? = some a) : a ∈ l := by
  rcases List.getElem?_eq_some_iff.mp h with ⟨hl, rfl⟩
  exact List.getElem_mem hl

theorem terminal_empty {t : AttrValue} {n : Nat} {tr : List Label} {s : GState}
    (hn : 1 ≤ n) (hr : runFrom t (initState n) tr = some s) (hd : allDone s)
    (he : s.exc = none) : s.todo = [] ∧ s.active = [] := by
  rcases List.eq_nil_or_concat tr with rfl | ⟨tr2, l, rfl⟩
  · cases hr
    have hmem : SlotState.idle ∈ (initState n).slots := by
      simp only [initState]
      exact List.mem_replicate.mpr ⟨by omega, rfl⟩
    cases hd _ hmem
  · rw [List.concat_eq_append, runFrom_append] at hr
    cases hmid : runFrom t (initState n) tr2 with
    | none => rw [hmid] at hr; cases hr
    | some s1 =>
      rw [hmid] at hr
      simp only [Option.some_bind] at hr
      rw [runFrom] at hr
      cases hstep : stepFn t s1 l with
      | none => rw [hstep] at hr; cases hr
      | some s3 =>
        rw [hstep] at hr
        cases hr
        cases l with
        | claim i =>
          obtain ⟨p, rest, hslot, _, _, rfl⟩ := step_claim_eq hstep
          have hmem := mem_of_slot (@getElem?_set_same _ _ _ (SlotState.claimed p) hslot)
          cases hd _ hmem
        | finish i =>
          obtain ⟨hslot, hguard, rfl⟩ := step_finish_eq hstep
          rcases hguard with ⟨h1, h2⟩ | h1
          · exact ⟨h1, h2⟩
          · exact absurd he h1
        | respond i =>
          obtain ⟨p, hslot, rfl⟩ := step_respond_eq hstep
          have hmem := mem_of_slot
            (@getElem?_set_same _ _ _ (SlotState.gotReply p (evalReply t p)) hslot)
          cases hd _ hmem
        | record i =>
          obtain ⟨p, r, hslot, rfl⟩ := step_record_eq hstep
          have hmem := mem_of_slot (@getElem?_set_same _ _ _ (SlotState.recorded p r) hslot)
          cases hd _ hmem
        | fold i =>
          obtain ⟨p, r, hslot, rfl⟩ := step_fold_eq hstep
          have hmem := mem_of_slot (@getElem?_set_same _ _ _ (SlotState.idle) hslot)
          cases hd _ hmem
        | fail i e =>
          obtain ⟨_, rfl⟩ := step_fail_eq hstep
          cases he

theorem reach_imp_prec {t : AttrValue} {s : GState} (hv : InvG t s)
    (ht : s.todo = []) (ha : s.active = []) (hd : allDone s) :
    ∀ p, Reach t p → p ∈ s.prec := by
  intro p hp
  induction hp with
  | root =>
    rcases hv.root_mem with h | h | h
    · rw [ht] at h; cases h
    · rw [ha] at h; cases h
    · exact h
  | @child q ns n hq hre hn ih =>
    have hnorec : ∀ (i : Nat) (r : Reply),
        s.slots[i]? ≠ some (SlotState.recorded q r) := by
      intro i r hi
      cases hd _ (mem_of_slot hi)
    have hc : joinPath q n ∈ childPaths q (evalReply t q) := by
      rw [hre]
      simp only [childPaths, List.mem_map]
      exact ⟨n, hn, rfl⟩
    rcases hv.closure q ih hnorec _ hc with h | h | h
    · rw [ht] at h; cases h
    · rw [ha] at h; cases h
    · exact h

theorem terminal_prec_iff_reach {t : AttrValue} {s : GState} (hv : InvG t s)
    (ht : s.todo = []) (ha : s.active = []) (hd : allDone s) :
    ∀ p, p ∈ s.prec ↔ Reach t p := by
  intro p
  exact ⟨fun h => hv.reach_prec p h, fun h => reach_imp_prec hv ht ha hd p h⟩

/-! ## Liveness under a recorded fatal error

Once `exc` is set, `claim` is disabled, every remaining step strictly
decreases a finite measure of the thread positions, and every
non-terminal thread always has an enabled step — so every thread reaches
`done` or `failed` within `measureG` further steps of its own. -/

theorem claim_disabled {t : AttrValue} {s : GState} {i : Nat}
    (hexc : s.exc ≠ none) : stepFn t s (.claim i) = none := by
  rw [stepFn]
  cases hslot : s.slots[i]? with
  | none => rfl
  | some st =>
    cases st with
    | idle =>
      cases hexc2 : s.exc with
      | none => exact absurd hexc2 hexc
      | some e => rfl
    | claimed p => rfl
    | gotReply p r => rfl
    | recorded p r => rfl
    | done => rfl
    | failed => rfl

theorem sum_map_set_lt {l : List SlotState} {i : Nat} {a b : SlotState}
    (h : l[i]? = some a) (hlt : slotMeasure b < slotMeasure a) :
    ((l.set i b).map slotMeasure).sum < (l.map slotMeasure).sum := by
  induction l generalizing i with
  | nil => cases h
  | cons c rest ih =>
    cases i with
    | zero =>
      rw [List.getElem?_cons_zero] at h
      cases Option.some.inj h
      simp only [List.set_cons_zero, List.map_cons, List.sum_cons]
      omega
    | succ j =>
      rw [List.getElem?_cons_succ] at h
      simp only [List.set_cons_succ, List.map_cons, List.sum_cons]
      have := ih h
      omega

theorem step_measure_lt {t : AttrValue} {s s2 : GState} {l : Label}
    (hexc : s.exc ≠ none) (hs : stepFn t s l = some s2) :
    measureG s2 < measureG s := by
  cases l with
  | claim i => rw [claim_disabled hexc] at hs; cases hs
  | finish i =>
    obtain ⟨hslot, _, rfl⟩ := step_finish_eq hs
    exact sum_map_set_lt hslot (by simp [slotMeasure])
  | respond i =>
    obtain ⟨p, hslot, rfl⟩ := step_respond_eq hs
    exact sum_map_set_lt hslot (by simp [slotMeasure])
  | record i =>
    obtain ⟨p, r, hslot, rfl⟩ := step_record_eq hs
    exact sum_map_set_lt hslot (by simp [slotMeasure])
  | fold i =>
    obtain ⟨p, r, hslot, rfl⟩ := step_fold_eq hs
    exact sum_map_set_lt hslot (by simp [slotMeasure])
  | fail i e =>
    obtain ⟨hslot, rfl⟩ := step_fail_eq hs
    rcases hslot with h | ⟨p, h⟩
    · exact sum_map_set_lt h (by simp [slotMeasure])
    · exact sum_map_set_lt h (by simp [slotMeasure])

theorem run_length_le {t : AttrValue} {s s2 : GState} {tr : List Label}
    (hexc : s.exc ≠ none) (hs : runFrom t s tr = some s2) :
    tr.length + measureG s2 ≤ measureG s := by
  induction tr generalizing s with
  | nil => cases hs; simp
  | cons l ls ih =>
    rw [runFrom] at hs
    cases hstep : stepFn t s l with
    | none => rw [hstep] at hs; cases hs
    | some s3 =>
      rw [hstep] at hs
      have h1 := step_measure_lt hexc hstep
      have h2 := ih (step_exc_mono hstep hexc) hs
      simp only [List.length_cons]
      omega

theorem progress_of_exc {t : AttrValue} {s : GState} (hexc : s.exc ≠ none)
    (hnt : ¬ allTerminal s) : ∃ l, stepFn t s l ≠ none := by
  rw [allTerminal] at hnt
  push_neg at hnt
  obtain ⟨st, hmem, hst1, hst2⟩ := hnt
  obtain ⟨i, hi⟩ := List.mem_iff_getElem?.mp hmem
  cases st with
  | idle =>
    refine ⟨.finish i, ?_⟩
    rw [stepFn, hi, if_pos (Or.inr hexc)]
    simp
  | claimed p =>
    refine ⟨.respond i, ?_⟩
    rw [stepFn, hi]
    simp
  | gotReply p r =>
    refine ⟨.record i, ?_⟩
    rw [stepFn, hi]
    simp
  | recorded p r =>
    refine ⟨.fold i, ?_⟩
    rw [stepFn, hi]
    simp
  | done => exact absurd rfl hst1
  | failed => exact absurd rfl hst2

/-! ## Path-formation lemmas

`joinPath` is injective on filtered names: a name reported by the worker
contains no dot, so the dot introduced by the join is the *last* dot of the
child path — each discovered path has a unique parent. -/

theorem splitLast {a b a2 b2 : List Char} (hb : '.' ∉ b) (hb2 : '.' ∉ b2)
    (h : a ++ '.' :: b = a2 ++ '.' :: b2) : a = a2 ∧ b = b2 := by
  induction a generalizing a2 with
  | nil =>
    cases a2 with
    | nil =>
      rw [List.nil_append, List.nil_append] at h
      injection h with h1 h2
      exact ⟨rfl, h2⟩
    | cons c cs =>
      rw [List.nil_append, List.cons_append] at h
      injection h with h1 h2
      exact absurd (h2 ▸ List.mem_append.mpr (Or.inr (List.mem_cons_self _ _))) hb
  | cons c cs ih =>
    cases a2 with
    | nil =>
      rw [List.nil_append, List.cons_append] at h
      injection h with h1 h2
      exact absurd (h2.symm ▸ List.mem_append.mpr (Or.inr (List.mem_cons_self _ _))) hb2
    | cons d ds =>
      rw [List.cons_append, List.cons_append] at h
      injection h with h1 h2
      obtain ⟨ha, hbb⟩ := ih h2
      exact ⟨by rw [h1, ha], hbb⟩

theorem data_inj {a b : String} (h : a.data = b.data) : a = b := by
  cases a with
  | mk da =>
    cases b with
    | mk db => exact congrArg String.mk h

theorem okName_no_dot {m : String} (h : okName m = true) : '.' ∉ m.data := by
  rw [okName] at h
  simp only [Bool.and_eq_true, Bool.not_eq_true'] at h
  intro hmem
  have h2 : m.data.contains '.' = true := List.elem_eq_true_of_mem hmem
  rw [h.1] at h2
  exact Bool.noConfusion h2

theorem joinPath_empty (m : String) : joinPath "" m = m := by
  rw [joinPath, if_pos rfl]
  cases m with
  | mk dm => rfl

theorem joinPath_data {q : String} (m : String) (hq : q ≠ "") :
    (joinPath q m).data = q.data ++ '.' :: m.data := by
  rw [joinPath, if_neg hq, String.data_append, String.data_append]
  simp

theorem joinPath_eq_empty {q m : String} (h : joinPath q m = "") :
    q = "" ∧ m = "" := by
  by_cases hq : q = ""
  · subst hq
    rw [joinPath_empty] at h
    exact ⟨rfl, h⟩
  · have hd := congrArg String.data h
    rw [joinPath_data m hq] at hd
    have : ([] : List Char).length = (q.data ++ '.' :: m.data).length := by rw [hd]
    simp at this
    omega

theorem joinPath_eq_self {q m : String} (h : joinPath q m = q) :
    q = "" ∧ m = "" := by
  by_cases hq : q = ""
  · subst hq
    rw [joinPath_empty] at h
    exact ⟨rfl, h⟩
  · have hd := congrArg String.data h
    rw [joinPath_data m hq] at hd
    have := congrArg List.length hd
    simp at this

theorem joinPath_inj {q m q2 m2 : String} (hm : okName m = true)
    (hm2 : okName m2 = true) (h : joinPath q m = joinPath q2 m2) :
    q = q2 ∧ m = m2 := by
  by_cases hq : q = ""
  · by_cases hq2 : q2 = ""
    · subst hq; subst hq2
      rw [joinPath_empty, joinPath_empty] at h
      exact ⟨rfl, h⟩
    · subst hq
      rw [joinPath_empty] at h
      have hd := congrArg String.data h
      rw [joinPath_data m2 hq2] at hd
      exact absurd (hd ▸ List.mem_append.mpr (Or.inr (List.mem_cons_self _ _)))
        (okName_no_dot hm)
  · by_cases hq2 : q2 = ""
    · subst hq2
      rw [joinPath_empty] at h
      have hd := congrArg String.data h.symm
      rw [joinPath_data m hq] at hd
      exact absurd (hd ▸ List.mem_append.mpr (Or.inr (List.mem_cons_self _ _)))
        (okName_no_dot hm2)
    · have hd := congrArg String.data h
      rw [joinPath_data m hq, joinPath_data m2 hq2] at hd
      obtain ⟨h1, h2⟩ := splitLast (okName_no_dot hm) (okName_no_dot hm2) hd
      exact ⟨data_inj h1, data_inj h2⟩

theorem names_ok {t : AttrValue} {p : String} {ns : List String}
    (h : evalReply t p = .attrs ns) : ∀ m ∈ ns, okName m = true := by
  rw [evalReply] at h
  split at h
  · cases h
  · split at h
    · split at h
      · cases h
      · cases h
    · injection h with h2
      subst h2
      intro m hm
      exact (List.mem_filter.mp hm).2
    · cases h
    · cases h
    · cases h

/-! ## Disjointness of `todo` and `active`

For trees whose root expansion does not name the empty identifier, each
path is inserted into `todo` at most once (its parent is unique and folds
once), so a path is never simultaneously pending and in flight. -/

theorem holdsL_set_ne {sl : List SlotState} {i j : Nat} {b : SlotState}
    {q : String} (hij : j ≠ i) : holdsL (sl.set i b) j q ↔ holdsL sl j q := by
  unfold holdsL
  rw [List.getElem?_set_ne (fun he => hij he.symm)]

theorem holdsL_set_self {sl : List SlotState} {i : Nat} {a b : SlotState}
    {q : String} (ha : sl[i]? = some a) :
    holdsL (sl.set i b) i q ↔ pathOfSlot b = some q := by
  unfold holdsL
  rw [getElem?_set_same ha]
  constructor
  · rintro ⟨st, h1, h2⟩
    cases Option.some.inj h1
    exact h2
  · intro h
    exact ⟨b, rfl, h⟩

theorem holdsL_set_equiv {sl : List SlotState} {i : Nat} {a b : SlotState}
    (ha : sl[i]? = some a) (hab : pathOfSlot a = pathOfSlot b) :
    ∀ (j : Nat) (q : String), holdsL (sl.set i b) j q ↔ holdsL sl j q := by
  intro j q
  by_cases hij : j = i
  · subst hij
    rw [holdsL_set_self ha, ← hab]
    constructor
    · intro h
      exact ⟨a, ha, h⟩
    · rintro ⟨st, h1, h2⟩
      rw [ha] at h1
      cases Option.some.inj h1
      exact h2
  · exact holdsL_set_ne hij

theorem holdsL_of_set_none {sl : List SlotState} {i : Nat} {b : SlotState}
    (hb : pathOfSlot b = none) {j : Nat} {q : String}
    (h : holdsL (sl.set i b) j q) : j ≠ i ∧ holdsL sl j q := by
  by_cases hij : j = i
  · subst hij
    obtain ⟨st, h1, h2⟩ := h
    rw [List.getElem?_set, if_pos rfl] at h1
    by_cases hlen : j < sl.length
    · rw [if_pos hlen] at h1
      cases Option.some.inj h1
      rw [hb] at h2
      cases h2
    · rw [if_neg hlen] at h1
      cases h1
  · exact ⟨hij, (holdsL_set_ne hij).mp h⟩

theorem sorted_foldl_insSorted {cs td : List String}
    (h : List.Sorted strLtP td) :
    List.Sorted strLtP (cs.foldl (fun td c => insSorted c td) td) := by
  induction cs generalizing td with
  | nil => exact h
  | cons c rest ih => exact ih (sorted_insSorted h)


theorem invD_initState {t : AttrValue} {n : Nat} : InvD t (initState n) := by
  refine ⟨?_, ?_, ?_, ?_, ?_, ?_, ?_, ?_⟩
  · exact List.sorted_singleton ""
  · exact List.sorted_nil
  · intro p ⟨_, h⟩; cases h
  · intro p ⟨_, h⟩; cases h
  · intro p ⟨h, _⟩; cases h
  · intro i p ⟨st, h1, h2⟩
    rcases List.getElem?_eq_some_iff.mp h1 with ⟨hlen, hget⟩
    simp only [initState, List.getElem_replicate] at hget
    subst hget
    cases h2
  · intro i j p q hij ⟨st, h1, h2⟩ _
    rcases List.getElem?_eq_some_iff.mp h1 with ⟨hlen, hget⟩
    simp only [initState, List.getElem_replicate] at hget
    subst hget
    cases h2
  · intro p hp
    rcases hp with h | h | h
    · simp only [initState, List.mem_singleton] at h
      exact Or.inl h
    · cases h
    · cases h

theorem invD_claim {t : AttrValue} {s s2 : GState} {i : Nat} (hd : InvD t s)
    (hs : stepFn t s (.claim i) = some s2) : InvD t s2 := by
  obtain ⟨p, rest, hslot, hexc, htodo, rfl⟩ := step_claim_eq hs
  have hsorted : List.Sorted strLtP (p :: rest) := htodo ▸ hd.todo_sorted
  have hpb : ∀ b ∈ rest, strLtP p b := (List.sorted_cons.mp hsorted).1
  have hpnr : p ∉ rest := fun h =>
    absurd (hpb p h) (by simp [strLtP, strLt_irrefl])
  have hptodo : p ∈ s.todo := htodo ▸ List.mem_cons_self _ _
  have hpactive : p ∉ s.active := fun h => hd.todo_active p ⟨hptodo, h⟩
  refine ⟨(List.sorted_cons.mp hsorted).2, sorted_insSorted hd.active_sorted,
    ?_, ?_, ?_, ?_, ?_, ?_⟩
  · intro x ⟨hx1, hx2⟩
    rcases mem_insSorted.mp hx2 with rfl | hx2
    · exact hpnr hx1
    · exact hd.todo_active x ⟨htodo ▸ List.mem_cons.mpr (Or.inr hx1), hx2⟩
  · intro x ⟨hx1, hx2⟩
    exact hd.todo_folded x ⟨htodo ▸ List.mem_cons.mpr (Or.inr hx1), hx2⟩
  · intro x ⟨hx1, hx2⟩
    rcases mem_insSorted.mp hx1 with rfl | hx1
    · exact hd.todo_folded x ⟨hptodo, hx2⟩
    · exact hd.active_folded x ⟨hx1, hx2⟩
  · intro j q hj
    by_cases hij : j = i
    · subst hij
      rw [holdsL_set_self hslot] at hj
      cases Option.some.inj hj
      exact mem_insSorted.mpr (Or.inl rfl)
    · exact mem_insSorted.mpr
        (Or.inr (hd.slot_active j q ((holdsL_set_ne hij).mp hj)))
  · intro j k q1 q2 hjk hj hk
    by_cases hji : j = i
    · subst hji
      rw [holdsL_set_self hslot] at hj
      have hq1 : q1 = p := (Option.some.inj hj).symm
      subst hq1
      have hk2 := hd.slot_active k q2 ((holdsL_set_ne (fun he => hjk he.symm)).mp hk)
      intro he
      subst he
      exact hd.todo_active _ ⟨hptodo, hk2⟩
    · by_cases hki : k = i
      · subst hki
        rw [holdsL_set_self hslot] at hk
        have hq2 : q2 = p := (Option.some.inj hk).symm
        subst hq2
        have hj2 := hd.slot_active j q1 ((holdsL_set_ne hji).mp hj)
        intro he
        subst he
        exact hd.todo_active _ ⟨hptodo, hj2⟩
      · exact hd.slot_distinct j k q1 q2 hjk
          ((holdsL_set_ne hji).mp hj) ((holdsL_set_ne hki).mp hk)
  · intro x hx
    have hx2 : x ∈ s.todo ∨ x ∈ s.active ∨ x ∈ s.foldedL := by
      rcases hx with h | h | h
      · exact Or.inl (htodo ▸ List.mem_cons.mpr (Or.inr h))
      · rcases mem_insSorted.mp h with rfl | h
        · exact Or.inl hptodo
        · exact Or.inr (Or.inl h)
      · exact Or.inr (Or.inr h)
    exact hd.origin x hx2

theorem invD_respond {t : AttrValue} {s s2 : GState} {i : Nat} (hd : InvD t s)
    (hs : stepFn t s (.respond i) = some s2) : InvD t s2 := by
  obtain ⟨p, hslot, rfl⟩ := step_respond_eq hs
  have hequiv := @holdsL_set_equiv _ _ _ (SlotState.gotReply p (evalReply t p))
    hslot rfl
  refine ⟨hd.todo_sorted, hd.active_sorted, hd.todo_active, hd.todo_folded,
    hd.active_folded, ?_, ?_, hd.origin⟩
  · intro j q hj
    exact hd.slot_active j q ((hequiv j q).mp hj)
  · intro j k q1 q2 hjk hj hk
    exact hd.slot_distinct j k q1 q2 hjk ((hequiv j q1).mp hj) ((hequiv k q2).mp hk)

theorem invD_record {t : AttrValue} {s s2 : GState} {i : Nat} (hd : InvD t s)
    (hs : stepFn t s (.record i) = some s2) : InvD t s2 := by
  obtain ⟨p, r, hslot, rfl⟩ := step_record_eq hs
  have hequiv := @holdsL_set_equiv _ _ _ (SlotState.recorded p r) hslot rfl
  refine ⟨hd.todo_sorted, hd.active_sorted, hd.todo_active, hd.todo_folded,
    hd.active_folded, ?_, ?_, hd.origin⟩
  · intro j q hj
    exact hd.slot_active j q ((hequiv j q).mp hj)
  · intro j k q1 q2 hjk hj hk
    exact hd.slot_distinct j k q1 q2 hjk ((hequiv j q1).mp hj) ((hequiv k q2).mp hk)

theorem invD_finish {t : AttrValue} {s s2 : GState} {i : Nat} (hd : InvD t s)
    (hs : stepFn t s (.finish i) = some s2) : InvD t s2 := by
  obtain ⟨hslot, _, rfl⟩ := step_finish_eq hs
  have hequiv := @holdsL_set_equiv _ _ _ (SlotState.done) hslot rfl
  refine ⟨hd.todo_sorted, hd.active_sorted, hd.todo_active, hd.todo_folded,
    hd.active_folded, ?_, ?_, hd.origin⟩
  · intro j q hj
    exact hd.slot_active j q ((hequiv j q).mp hj)
  · intro j k q1 q2 hjk hj hk
    exact hd.slot_distinct j k q1 q2 hjk ((hequiv j q1).mp hj) ((hequiv k q2).mp hk)

theorem invD_fail {t : AttrValue} {s s2 : GState} {i : Nat} {e : String}
    (hd : InvD t s) (hs : stepFn t s (.fail i e) = some s2) : InvD t s2 := by
  obtain ⟨hslot, rfl⟩ := step_fail_eq hs
  refine ⟨hd.todo_sorted, hd.active_sorted, hd.todo_active, hd.todo_folded,
    hd.active_folded, ?_, ?_, hd.origin⟩
  · intro j q hj
    obtain ⟨_, hj2⟩ := @holdsL_of_set_none _ _ SlotState.failed rfl _ _ hj
    exact hd.slot_active j q hj2
  · intro j k q1 q2 hjk hj hk
    obtain ⟨_, hj2⟩ := @holdsL_of_set_none _ _ SlotState.failed rfl _ _ hj
    obtain ⟨_, hk2⟩ := @holdsL_of_set_none _ _ SlotState.failed rfl _ _ hk
    exact hd.slot_distinct j k q1 q2 hjk hj2 hk2

theorem invD_fold {t : AttrValue} {s s2 : GState} {i : Nat} (hg : goodTree t)
    (hv : InvG t s) (hd : InvD t s) (hs : stepFn t s (.fold i) = some s2) :
    InvD t s2 := by
  obtain ⟨p, r, hslot, rfl⟩ := step_fold_eq hs
  obtain ⟨hpR, hrEq, hpPrec⟩ := hv.slot_rec i p r hslot
  subst hrEq
  have hpHolds : holdsL s.slots i p := ⟨.recorded p (evalReply t p), hslot, rfl⟩
  have hpActive : p ∈ s.active := hd.slot_active i p hpHolds
  have hpNF : p ∉ s.foldedL := fun h => hd.active_folded p ⟨hpActive, h⟩
  have hanodup : s.active.Nodup := nodup_of_sorted hd.active_sorted
  have hfresh : ∀ c ∈ childPaths p (evalReply t p),
      ¬ (c ∈ s.todo ∨ c ∈ s.active ∨ c ∈ s.foldedL) := by
    intro c hc hmem
    cases hre : evalReply t p with
    | attrs ns =>
      rw [hre] at hc
      simp only [childPaths, List.mem_map] at hc
      obtain ⟨m, hm, rfl⟩ := hc
      have hmok : okName m = true := names_ok hre m hm
      rcases hd.origin _ hmem with he | ⟨q2, m2, ns2, hq2F, hre2, hm2, heq⟩
      · obtain ⟨hp0, hm0⟩ := joinPath_eq_empty he
        subst hp0
        subst hm0
        exact hg ns hre hm
      · have hm2ok : okName m2 = true := names_ok hre2 m2 hm2
        obtain ⟨hq, hmm⟩ := joinPath_inj hmok hm2ok heq
        subst hq
        exact hpNF hq2F
    | job j2 => rw [hre] at hc; simp [childPaths] at hc
    | empty => rw [hre] at hc; simp [childPaths] at hc
    | error e2 => rw [hre] at hc; simp [childPaths] at hc
  have hcnp : ∀ c ∈ childPaths p (evalReply t p), c ≠ p := by
    intro c hc he
    cases hre : evalReply t p with
    | attrs ns =>
      rw [hre] at hc
      simp only [childPaths, List.mem_map] at hc
      obtain ⟨m, hm, rfl⟩ := hc
      obtain ⟨hp0, hm0⟩ := joinPath_eq_self he
      subst hp0
      subst hm0
      exact hg ns hre hm
    | job j2 => rw [hre] at hc; simp [childPaths] at hc
    | empty => rw [hre] at hc; simp [childPaths] at hc
    | error e2 => rw [hre] at hc; simp [childPaths] at hc
  refine ⟨sorted_foldl_insSorted hd.todo_sorted,
    List.Pairwise.sublist (List.erase_sublist p s.active) hd.active_sorted,
    ?_, ?_, ?_, ?_, ?_, ?_⟩
  · intro x ⟨hx1, hx2⟩
    have hx2a : x ≠ p ∧ x ∈ s.active := (hanodup.mem_erase_iff).mp hx2
    rcases mem_foldl_insSorted.mp hx1 with h | h
    · exact hd.todo_active x ⟨h, hx2a.2⟩
    · exact hfresh x h (Or.inr (Or.inl hx2a.2))
  · intro x ⟨hx1, hx2⟩
    rcases mem_foldl_insSorted.mp hx1 with h | h
    · rcases List.mem_cons.mp hx2 with rfl | hx3
      · exact hd.todo_active x ⟨h, hpActive⟩
      · exact hd.todo_folded x ⟨h, hx3⟩
    · rcases List.mem_cons.mp hx2 with rfl | hx3
      · exact hcnp x h rfl
      · exact hfresh x h (Or.inr (Or.inr hx3))
  · intro x ⟨hx1, hx2⟩
    have hx1a : x ≠ p ∧ x ∈ s.active := (hanodup.mem_erase_iff).mp hx1
    rcases List.mem_cons.mp hx2 with rfl | hx3
    · exact hx1a.1 rfl
    · exact hd.active_folded x ⟨hx1a.2, hx3⟩
  · intro j q hj
    obtain ⟨hji, hj2⟩ := @holdsL_of_set_none _ _ SlotState.idle rfl _ _ hj
    have hq := hd.slot_active j q hj2
    have hne : q ≠ p := hd.slot_distinct j i q p hji hj2 hpHolds
    exact (List.mem_erase_of_ne hne).mpr hq
  · intro j k q1 q2 hjk hj hk
    obtain ⟨_, hj2⟩ := @holdsL_of_set_none _ _ SlotState.idle rfl _ _ hj
    obtain ⟨_, hk2⟩ := @holdsL_of_set_none _ _ SlotState.idle rfl _ _ hk
    exact hd.slot_distinct j k q1 q2 hjk hj2 hk2
  · intro x hx
    rcases hx with h | h | h
    · rcases mem_foldl_insSorted.mp h with h2 | h2
      · rcases hd.origin x (Or.inl h2) with he | ⟨q2, m2, ns2, hq2, hre2, hm2, heq⟩
        · exact Or.inl he
        · exact Or.inr ⟨q2, m2, ns2, List.mem_cons.mpr (Or.inr hq2), hre2, hm2, heq⟩
      · cases hre : evalReply t p with
        | attrs ns =>
          rw [hre] at h2
          simp only [childPaths, List.mem_map] at h2
          obtain ⟨m, hm, rfl⟩ := h2
          exact Or.inr ⟨p, m, ns, List.mem_cons_self _ _, hre, hm, rfl⟩
        | job j2 => rw [hre] at h2; simp [childPaths] at h2
        | empty => rw [hre] at h2; simp [childPaths] at h2
        | error e2 => rw [hre] at h2; simp [childPaths] at h2
    · have h2 := List.mem_of_mem_erase h
      rcases hd.origin x (Or.inr (Or.inl h2)) with he | ⟨q2, m2, ns2, hq2, hre2, hm2, heq⟩
      · exact Or.inl he
      · exact Or.inr ⟨q2, m2, ns2, List.mem_cons.mpr (Or.inr hq2), hre2, hm2, heq⟩
    · rcases List.mem_cons.mp h with rfl | h2
      · rcases hd.origin x (Or.inr (Or.inl hpActive)) with he | ⟨q2, m2, ns2, hq2, hre2, hm2, heq⟩
        · exact Or.inl he
        · exact Or.inr ⟨q2, m2, ns2, List.mem_cons.mpr (Or.inr hq2), hre2, hm2, heq⟩
      · rcases hd.origin x (Or.inr (Or.inr h2)) with he | ⟨q2, m2, ns2, hq2, hre2, hm2, heq⟩
        · exact Or.inl he
        · exact Or.inr ⟨q2, m2, ns2, List.mem_cons.mpr (Or.inr hq2), hre2, hm2, heq⟩

theorem invD_step {t : AttrValue} {s s2 : GState} {l : Label} (hg : goodTree t)
    (hv : InvG t s) (hd : InvD t s) (hs : stepFn t s l = some s2) : InvD t s2 := by
  cases l with
  | claim i => exact invD_claim hd hs
  | finish i => exact invD_finish hd hs
  | respond i => exact invD_respond hd hs
  | record i => exact invD_record hd hs
  | fold i => exact invD_fold hg hv hd hs
  | fail i e => exact invD_fail hd hs

theorem invD_run {t : AttrValue} {s s2 : GState} {tr : List Label}
    (hg : goodTree t) (hv : InvG t s) (hd : InvD t s)
    (hs : runFrom t s tr = some s2) : InvD t s2 := by
  induction tr generalizing s with
  | nil => cases hs; exact hd
  | cons l ls ih =>
    rw [runFrom] at hs
    cases hstep : stepFn t s l with
    | none => rw [hstep] at hs; cases hs
    | some s3 =>
      rw [hstep] at hs
      exact ih (inv_step hv hstep) (invD_step hg hv hd hstep) hs

/-! ## Worker-loop lemmas -/

theorem workerLoop_exit {t : AttrValue} {lim m : Nat} {rest : List (Cmd × Nat)} :
    workerLoop t lim ((Cmd.exitCmd, m) :: rest) = [Line.next, Line.restart] := rfl

theorem workerLoop_breach {t : AttrValue} {lim : Nat} {p : String} {m : Nat}
    {rest : List (Cmd × Nat)} (h : lim * 1024 < m) :
    workerLoop t lim ((Cmd.doCmd p, m) :: rest)
      = [Line.next, Line.resp (evalReply t p), Line.restart] := by
  simp [workerLoop, if_pos h]

theorem workerLoop_under {t : AttrValue} {lim : Nat} {p : String} {m : Nat}
    {rest : List (Cmd × Nat)} (h : ¬ lim * 1024 < m) :
    workerLoop t lim ((Cmd.doCmd p, m) :: rest)
      = Line.next :: Line.resp (evalReply t p) :: workerLoop t lim rest := by
  simp [workerLoop, if_neg h]

theorem workerLoop_served {t : AttrValue} {lim : Nat} {cmds pre : List (Cmd × Nat)}
    (h : ∀ q ∈ pre, underLimit lim q) :
    workerLoop t lim (pre ++ cmds) = linesOf t pre ++ workerLoop t lim cmds := by
  induction pre with
  | nil => simp [linesOf]
  | cons q rest ih =>
    obtain ⟨c, m⟩ := q
    obtain ⟨⟨p, hp⟩, hm⟩ := h (c, m) (List.mem_cons_self _ _)
    simp only at hp
    subst hp
    rw [List.cons_append, workerLoop_under hm,
      ih (fun q hq => h q (List.mem_cons.mpr (Or.inr hq)))]
    simp [linesOf]

theorem restartOnlyAtEnd_workerLoop {t : AttrValue} {lim : Nat} :
    ∀ cmds : List (Cmd × Nat), restartOnlyAtEnd (workerLoop t lim cmds) = true := by
  intro cmds
  induction cmds with
  | nil => rfl
  | cons q rest ih =>
    obtain ⟨c, m⟩ := q
    cases c with
    | exitCmd => rfl
    | doCmd p =>
      by_cases h : lim * 1024 < m
      · rw [workerLoop_breach h]
        rfl
      · rw [workerLoop_under h]
        simp only [restartOnlyAtEnd]
        cases hw : workerLoop t lim rest with
        | nil => rfl
        | cons a l =>
          rw [← hw]
          simpa [restartOnlyAtEnd] using ih

/-! ## Slot-session lemmas -/

theorem instOf_slotSteps_ge {t : AttrValue} {lim : Nat} {mem : Nat → Nat → Nat} :
    ∀ (ps : List String) (w k : Nat),
    ∀ e ∈ slotSteps t lim mem ps w k, w ≤ instOf e := by
  intro ps
  induction ps with
  | nil =>
    intro w k e he
    rw [slotSteps] at he
    rcases List.mem_singleton.mp he with rfl
    exact le_refl w
  | cons p rest ih =>
    intro w k e he
    rw [slotSteps] at he
    rcases List.mem_cons.mp he with rfl | he2
    · exact le_refl w
    · rcases List.mem_cons.mp he2 with rfl | he3
      · exact le_refl w
      · by_cases h : lim * 1024 < mem w k
        · rw [if_pos h] at he3
          rcases List.mem_cons.mp he3 with rfl | he4
          · exact le_refl w
          · rcases List.mem_cons.mp he4 with rfl | he5
            · exact Nat.le_succ w
            · rcases List.mem_cons.mp he5 with rfl | he6
              · exact Nat.le_succ w
              · exact Nat.le_of_succ_le (ih (w + 1) 0 e he6)
        · rw [if_neg h] at he3
          rcases List.mem_cons.mp he3 with rfl | he4
          · exact le_refl w
          · exact ih w (k + 1) e he4

theorem dispatchesAbove_of_gt {b : Nat} {l : List SEv}
    (h : ∀ e ∈ l, b < instOf e) : dispatchesAbove b l = true := by
  induction l with
  | nil => rfl
  | cons e rest ih =>
    simp only [dispatchesAbove, Bool.and_eq_true]
    refine ⟨?_, ih (fun e2 he2 => h e2 (List.mem_cons.mpr (Or.inr he2)))⟩
    cases e with
    | dispatch w p => exact decide_eq_true (h _ (List.mem_cons_self _ _))
    | spawn w => rfl
    | readNext w => rfl
    | gotReply w p r => rfl
    | readRestart w => rfl
    | sendExit w => rfl

theorem restartFresh_slotSteps {t : AttrValue} {lim : Nat} {mem : Nat → Nat → Nat} :
    ∀ (ps : List String) (w k : Nat),
    restartFresh (slotSteps t lim mem ps w k) = true := by
  intro ps
  induction ps with
  | nil => intro w k; rfl
  | cons p rest ih =>
    intro w k
    rw [slotSteps]
    by_cases h : lim * 1024 < mem w k
    · rw [if_pos h]
      have h1 : dispatchesAbove w (SEv.spawn (w + 1) :: SEv.readNext (w + 1) ::
          slotSteps t lim mem rest (w + 1) 0) = true := by
        apply dispatchesAbove_of_gt
        intro e he
        rcases List.mem_cons.mp he with rfl | he2
        · simp [instOf]
        · rcases List.mem_cons.mp he2 with rfl | he3
          · simp [instOf]
          · have := instOf_slotSteps_ge rest (w + 1) 0 e he3
            omega
      simp [restartFresh, h1, ih (w + 1) 0]
    · rw [if_neg h]
      simp [restartFresh, ih w (k + 1)]

theorem spawnAfterRestart_slotSteps {t : AttrValue} {lim : Nat}
    {mem : Nat → Nat → Nat} :
    ∀ (ps : List String) (w k : Nat),
    spawnAfterRestart (slotSteps t lim mem ps w k) = true := by
  intro ps
  induction ps with
  | nil => intro w k; rfl
  | cons p rest ih =>
    intro w k
    rw [slotSteps]
    by_cases h : lim * 1024 < mem w k
    · rw [if_pos h]
      simp [spawnAfterRestart, ih (w + 1) 0]
    · rw [if_neg h]
      simp [spawnAfterRestart, ih w (k + 1)]

theorem dispatchAnswered_slotSteps {t : AttrValue} {lim : Nat}
    {mem : Nat → Nat → Nat} :
    ∀ (ps : List String) (w k : Nat),
    dispatchAnswered t (slotSteps t lim mem ps w k) = true := by
  intro ps
  induction ps with
  | nil => intro w k; rfl
  | cons p rest ih =>
    intro w k
    rw [slotSteps]
    by_cases h : lim * 1024 < mem w k
    · rw [if_pos h]
      simp [dispatchAnswered, ih (w + 1) 0]
    · rw [if_neg h]
      simp [dispatchAnswered, ih w (k + 1)]

theorem restartAfterReply_slotSteps {t : AttrValue} {lim : Nat}
    {mem : Nat → Nat → Nat} :
    ∀ (ps : List String) (w k : Nat) (a : SEv),
    restartAfterReply (a :: slotSteps t lim mem ps w k) = true := by
  intro ps
  induction ps with
  | nil =>
    intro w k a
    rw [slotSteps]
    simp [restartAfterReply]
  | cons p rest ih =>
    intro w k a
    rw [slotSteps]
    by_cases h : lim * 1024 < mem w k
    · rw [if_pos h]
      simp [restartAfterReply, ih (w + 1) 0 (SEv.readNext (w + 1))]
    · rw [if_neg h]
      simp [restartAfterReply, ih w (k + 1) (SEv.readNext w)]

/-! ## Remaining supporting lemmas for the claims -/

theorem okName_no_space {m : String} (h : okName m = true) : ' ' ∉ m.data := by
  rw [okName] at h
  simp only [Bool.and_eq_true, Bool.not_eq_true'] at h
  intro hmem
  have h2 : m.data.contains ' ' = true := List.elem_eq_true_of_mem hmem
  rw [h.2] at h2
  exact Bool.noConfusion h2

theorem todo_shape_step {t : AttrValue} {s s2 : GState} {l : Label}
    (hv : InvG t s) (hp : ∀ q ∈ s.todo, okShape q) (hs : stepFn t s l = some s2) :
    ∀ q ∈ s2.todo, okShape q := by
  cases l with
  | claim i =>
    obtain ⟨p, rest, _, _, htodo, rfl⟩ := step_claim_eq hs
    intro q hq
    exact hp q (htodo ▸ List.mem_cons.mpr (Or.inr hq))
  | finish i =>
    obtain ⟨_, _, rfl⟩ := step_finish_eq hs
    exact hp
  | respond i =>
    obtain ⟨p, _, rfl⟩ := step_respond_eq hs
    exact hp
  | record i =>
    obtain ⟨p, r, _, rfl⟩ := step_record_eq hs
    exact hp
  | fail i e =>
    obtain ⟨_, rfl⟩ := step_fail_eq hs
    exact hp
  | fold i =>
    obtain ⟨p, r, hslot, rfl⟩ := step_fold_eq hs
    obtain ⟨_, hrEq, _⟩ := hv.slot_rec i p r hslot
    subst hrEq
    intro q hq
    rcases mem_foldl_insSorted.mp hq with h | h
    · exact hp q h
    · cases hre : evalReply t p with
      | attrs ns =>
        rw [hre] at h
        simp only [childPaths, List.mem_map] at h
        obtain ⟨m, hm, rfl⟩ := h
        exact Or.inr ⟨p, m, names_ok hre m hm, rfl⟩
      | job j => rw [hre] at h; simp [childPaths] at h
      | empty => rw [hre] at h; simp [childPaths] at h
      | error e => rw [hre] at h; simp [childPaths] at h

theorem active_removed {t : AttrValue} {s s2 : GState} {l : Label} {p : String}
    (hv : InvG t s) (hs : stepFn t s l = some s2)
    (hp : p ∈ s.active) (hp2 : p ∉ s2.active) :
    lookupE p s.jobs = entryFor t p ∧
      ∀ c ∈ childPaths p (evalReply t p), c ∈ s2.todo := by
  cases l with
  | claim i =>
    obtain ⟨p2, rest, _, _, _, rfl⟩ := step_claim_eq hs
    exact absurd (mem_insSorted.mpr (Or.inr hp)) hp2
  | finish i =>
    obtain ⟨_, _, rfl⟩ := step_finish_eq hs
    exact absurd hp hp2
  | respond i =>
    obtain ⟨p2, _, rfl⟩ := step_respond_eq hs
    exact absurd hp hp2
  | record i =>
    obtain ⟨p2, r, _, rfl⟩ := step_record_eq hs
    exact absurd hp hp2
  | fail i e =>
    obtain ⟨_, rfl⟩ := step_fail_eq hs
    exact absurd hp hp2
  | fold i =>
    obtain ⟨p2, r, hslot, rfl⟩ := step_fold_eq hs
    obtain ⟨hpR, hrEq, hpPrec⟩ := hv.slot_rec i p2 r hslot
    subst hrEq
    have hpp2 : p = p2 := by
      by_contra hne
      exact hp2 ((List.mem_erase_of_ne hne).mpr hp)
    subst hpp2
    constructor
    · rw [hv.jobs_eq]
      exact lookupE_buildMap_of_mem hv.prec_sorted hpPrec
    · intro c hc
      exact mem_foldl_insSorted.mpr (Or.inr hc)

theorem final_run_spec {t : AttrValue} {n : Nat} {tr : List Label} {s : GState}
    (hn : 1 ≤ n) (hr : runFrom t (initState n) tr = some s)
    (hd : allDone s) (he : s.exc = none) :
    s.jobs = buildMap t s.prec ∧ List.Sorted strLtP s.prec ∧
      (∀ p, p ∈ s.prec ↔ Reach t p) := by
  have hv := inv_run inv_initState hr
  obtain ⟨ht, ha⟩ := terminal_empty hn hr hd he
  exact ⟨hv.jobs_eq, hv.prec_sorted, terminal_prec_iff_reach hv ht ha hd⟩

theorem todo_shape_run {t : AttrValue} {n : Nat} {tr : List Label} {s : GState}
    (hr : runFrom t (initState n) tr = some s) : ∀ q ∈ s.todo, okShape q := by
  have haux : ∀ (s0 s1 : GState) (tr0 : List Label), InvG t s0 →
      (∀ q ∈ s0.todo, okShape q) → runFrom t s0 tr0 = some s1 →
      ∀ q ∈ s1.todo, okShape q := by
    intro s0 s1 tr0
    induction tr0 generalizing s0 with
    | nil => intro _ hp hs; cases hs; exact hp
    | cons l ls ih =>
      intro hv hp hs
      rw [runFrom] at hs
      cases hstep : stepFn t s0 l with
      | none => rw [hstep] at hs; cases hs
      | some s3 =>
        rw [hstep] at hs
        exact ih s3 (inv_step hv hstep) (todo_shape_step hv hp hstep) hs
  refine haux (initState n) s tr inv_initState ?_ hr
  intro q hq
  simp only [initState, List.mem_singleton] at hq
  exact Or.inl hq

/-! ## The claims -/

/-- C1, counterexample: with the root being an attribute set containing the
single job `a`, a complete clean run produces the key set `{"a"}`, while the
set of reachable attribute paths also contains the root `""` — so the keys
of the final mapping do NOT equal the set of all reachable paths: paths
that expand to children yield no key. -/
theorem c1_counterexample :
    runFrom tRoot (initState 1) trOne = some sOne ∧ allDone sOne ∧
      sOne.exc = none ∧ Reach tRoot "" ∧ lookupE "" sOne.jobs = none :=
  ⟨by decide, by decide, by decide, Reach.root, by decide⟩

/-- C1 (amended): for every attribute tree and every complete clean run,
the set of keys in the final result mapping equals exactly the set of
attribute paths reachable from the root by recursively expanding every
`ChildNames` result (identifiers containing `'.'` or `' '` excluded) whose
evaluation yields a job or an error; reachable paths that expand to
children or are null contribute no key. -/
theorem c1_keys_are_reachable_jobs {t : AttrValue} {n : Nat} {tr : List Label}
    {s : GState} (hn : 1 ≤ n) (hr : runFrom t (initState n) tr = some s)
    (hd : allDone s) (he : s.exc = none) :
    ∀ p, lookupE p s.jobs ≠ none ↔ (Reach t p ∧ entryFor t p ≠ none) := by
  obtain ⟨hjobs, hsort, hiff⟩ := final_run_spec hn hr hd he
  intro p
  by_cases hp : p ∈ s.prec
  · rw [hjobs, lookupE_buildMap_of_mem hsort hp]
    exact ⟨fun h2 => ⟨(hiff p).mp hp, h2⟩, fun h2 => h2.2⟩
  · rw [hjobs, lookupE_buildMap_of_not_mem hp]
    refine ⟨fun h2 => absurd rfl h2, fun h2 => absurd ((hiff p).mpr h2.1) hp⟩

/-- C1 witness: the amended theorem instantiated on the concrete run. -/
theorem c1_witness :
    lookupE "a" sOne.jobs ≠ none ↔ (Reach tRoot "a" ∧ entryFor tRoot "a" ≠ none) :=
  @c1_keys_are_reachable_jobs tRoot 1 trOne sOne (by decide) (by decide)
    (by decide) (by decide) "a"

/-- C2: for a fixed, pure root expression, any two complete clean runs —
whatever their pool sizes (1 vs N) and schedules — produce the same `jobs`
mapping (the same sorted association list, hence byte-identical output);
pool size affects only scheduling. -/
theorem c2_pool_independent {t : AttrValue} {n1 n2 : Nat}
    {tr1 tr2 : List Label} {s1 s2 : GState}
    (hn1 : 1 ≤ n1) (hn2 : 1 ≤ n2)
    (hr1 : runFrom t (initState n1) tr1 = some s1)
    (hd1 : allDone s1) (he1 : s1.exc = none)
    (hr2 : runFrom t (initState n2) tr2 = some s2)
    (hd2 : allDone s2) (he2 : s2.exc = none) :
    s1.jobs = s2.jobs ∧ driverOutput s1 = driverOutput s2 := by
  obtain ⟨hj1, hs1, hi1⟩ := final_run_spec hn1 hr1 hd1 he1
  obtain ⟨hj2, hs2, hi2⟩ := final_run_spec hn2 hr2 hd2 he2
  have hprec : s1.prec = s2.prec :=
    sorted_eq_of_mem_iff hs1 hs2 (fun x => by rw [hi1 x, hi2 x])
  have hjobs : s1.jobs = s2.jobs := by rw [hj1, hj2, hprec]
  refine ⟨hjobs, ?_⟩
  rw [driverOutput, driverOutput, he1, he2, hjobs]

/-- C2 witness: a 1-thread and a 2-thread run on the same tree produce the
same mapping. -/
theorem c2_witness : sOne.jobs = sTwo.jobs ∧ driverOutput sOne = driverOutput sTwo :=
  @c2_pool_independent tRoot 1 2 trOne trTwo sOne sTwo (by decide) (by decide)
    (by decide) (by decide) (by decide) (by decide) (by decide) (by decide)

/-- C3, counterexample: with root `{ "" = null; a = null; }` (legal Nix) and
two handler threads, the schedule `trEmptyName` reaches a state where the
path `"a"` is simultaneously in `todo` and in `active`: the empty child
name re-inserts the root into `todo`, whose second fold re-inserts `"a"`
while thread 1 still holds it. -/
theorem c3_counterexample :
    runFrom tEmptyName (initState 2) trEmptyName = some sEmptyName ∧
      "a" ∈ sEmptyName.todo ∧ "a" ∈ sEmptyName.active :=
  ⟨by decide, by decide, by decide⟩

/-- C3 (amended): at every reachable state of every run, (a) if the tree's
root expansion does not name the empty identifier, no path is
simultaneously in `todo` and `active`; and (b) for every tree, a step
removes a path from `active` only if the path's result is already recorded
in `jobs` (its entry equals `entryFor`; `attrs`/null results record
nothing) and the same step inserts all its discovered children into
`todo`. -/
theorem c3_frontier_invariant {t : AttrValue} {n : Nat} {tr : List Label}
    {s : GState} (hr : runFrom t (initState n) tr = some s) :
    (goodTree t → ∀ p, ¬ (p ∈ s.todo ∧ p ∈ s.active)) ∧
    (∀ (l : Label) (s2 : GState) (p : String), stepFn t s l = some s2 →
      p ∈ s.active → p ∉ s2.active →
      lookupE p s.jobs = entryFor t p ∧
        ∀ c ∈ childPaths p (evalReply t p), c ∈ s2.todo) := by
  have hv := inv_run inv_initState hr
  exact ⟨fun hg => (invD_run hg inv_initState invD_initState hr).todo_active,
    fun l s2 p hs hp hp2 => active_removed hv hs hp hp2⟩

/-- C3 witness: the amended invariant instantiated on a concrete clean run,
discharging both the run hypothesis and the root-expansion condition. -/
theorem c3_witness : ¬ ("a" ∈ sOne.todo ∧ "a" ∈ sOne.active) := by
  refine (@c3_frontier_invariant tRoot 1 trOne sOne ?_).1 ?_ "a"
  · exact (by decide : runFrom tRoot (initState 1) trOne = some sOne)
  · intro ns hns
    have he : evalReply tRoot "" = Reply.attrs ["a"] := by decide
    rw [he] at hns
    injection hns with h2
    rw [← h2]
    decide

/-- C4: once the run-level fatal error is recorded, `claim` is disabled in
the current and in every subsequent state (no path is removed from `todo`
again); every further schedule takes at most `measureG` steps; and every
state that is not yet all-terminal has an enabled step (no thread stays
blocked — the notify-all wakes every waiter). -/
theorem c4_fatal_short_circuit {t : AttrValue} {s : GState} (hexc : s.exc ≠ none) :
    (∀ i, stepFn t s (.claim i) = none) ∧
    (∀ (tr : List Label) (s2 : GState), runFrom t s tr = some s2 →
      (∀ i, stepFn t s2 (.claim i) = none) ∧
      tr.length + measureG s2 ≤ measureG s ∧
      (¬ allTerminal s2 → ∃ l, stepFn t s2 l ≠ none)) := by
  refine ⟨fun i => claim_disabled hexc, ?_⟩
  intro tr s2 hr
  have hexc2 := run_exc_mono hr hexc
  exact ⟨fun i => claim_disabled hexc2, run_length_le hexc hr,
    progress_of_exc hexc2⟩

/-- C4 witness: the theorem instantiated on a concrete state with a
recorded error and non-empty `todo`. -/
theorem c4_witness :
    stepFn tRoot sExc (Label.claim 0) = none ∧
      (¬ allTerminal sExc → ∃ l, stepFn tRoot sExc l ≠ none) := by
  have h := @c4_fatal_short_circuit tRoot sExc (by decide)
  exact ⟨h.1 0, (h.2 [] sExc rfl).2.2⟩

/-- C5: a worker whose post-reply RSS reading exceeds `maxMemorySize * 1024`
sends `restart` and terminates — it writes nothing further and serves no
further command, whatever else is queued; and in a slot session every
`readRestart` is followed by a `spawn` of the next instance, and every
later `do` goes to a strictly newer instance — never again to the breached
one. -/
theorem c5_memory_restart {t : AttrValue} {lim : Nat} :
    (∀ (pre rest : List (Cmd × Nat)) (p : String) (m : Nat),
      (∀ q ∈ pre, underLimit lim q) → lim * 1024 < m →
      workerLoop t lim (pre ++ (Cmd.doCmd p, m) :: rest)
        = linesOf t pre ++ [Line.next, Line.resp (evalReply t p), Line.restart]) ∧
    (∀ (mem : Nat → Nat → Nat) (ps : List String),
      restartFresh (slotRun t lim mem ps) = true ∧
      spawnAfterRestart (slotRun t lim mem ps) = true) := by
  constructor
  · intro pre rest p m hpre hm
    rw [workerLoop_served hpre, workerLoop_breach hm]
  · intro mem ps
    constructor
    · rw [slotRun]
      simp [restartFresh, restartFresh_slotSteps ps 0 0]
    · rw [slotRun]
      simp [spawnAfterRestart, spawnAfterRestart_slotSteps ps 0 0]

/-- C5 witness: the theorem instantiated on a concrete breach. -/
theorem c5_witness :
    workerLoop tRoot 4096 ([] ++ (Cmd.doCmd "a", 4194305) :: [])
      = linesOf tRoot [] ++ [Line.next, Line.resp (evalReply tRoot "a"), Line.restart] ∧
    restartFresh (slotRun tRoot 4096 (fun _ _ => 4194305) ["a"]) = true :=
  ⟨(c5_memory_restart).1 [] [] "a" 4194305
      (fun q hq => absurd hq (List.not_mem_nil q)) (by decide),
   ((c5_memory_restart).2 (fun _ _ => 4194305) ["a"]).1⟩

/-- C6, counterexample: a `restart` line read in place of a dispatched
path's response is fed to `nlohmann::json::parse` (line 358) and raises a
fatal parse error — the handler does NOT return to the no-worker state and
does NOT re-dispatch the claimed path. -/
theorem c6_counterexample : handlerOnResponse Line.restart = RespOutcome.fatalParse :=
  rfl

/-- C6 (amended): the handler recognizes `restart` only at the readiness
check, where it holds no claimed path (it then respawns, and the *next*
claimed path goes to the fresh worker — the same path is not re-dispatched,
since no path was in flight); a `restart` in place of a response is a fatal
parse error; in slot sessions every `readRestart` follows a completed
reply; and a mid-dispatch failure leaves `active` unchanged — the claimed
path stays recorded in `active` (it is never folded or retried). -/
theorem c6_restart_handling {t : AttrValue} {lim : Nat} :
    handlerOnReady Line.restart = ReadyOutcome.respawn ∧
    handlerOnResponse Line.restart = RespOutcome.fatalParse ∧
    (∀ (mem : Nat → Nat → Nat) (ps : List String),
      restartAfterReply (slotRun t lim mem ps) = true) ∧
    (∀ (s s2 : GState) (i : Nat) (e : String),
      stepFn t s (.fail i e) = some s2 → s2.active = s.active) := by
  refine ⟨rfl, rfl, ?_, ?_⟩
  · intro mem ps
    rw [slotRun]
    simp [restartAfterReply, restartAfterReply_slotSteps ps 0 0 (SEv.readNext 0)]
  · intro s s2 i e hs
    obtain ⟨_, rfl⟩ := step_fail_eq hs
    rfl

/-- C6 witness: the amended theorem instantiated on a concrete session and
a concrete mid-dispatch failure. -/
theorem c6_witness :
    restartAfterReply (slotRun tRoot 4096 (fun _ _ => 0) ["a"]) = true ∧
      sFailed.active = sClaimed.active := by
  have h := @c6_restart_handling tRoot 4096
  exact ⟨h.2.2.1 (fun _ _ => 0) ["a"], h.2.2.2 sClaimed sFailed 0 "boom" (by decide)⟩

/-- C7, counterexample: on receiving `exit` the worker leaves its loop and
then still executes the unconditional post-loop write (line 242): the
outbound trace is `[next, restart]`, so `restart` IS sent after `exit`,
contrary to the claim. -/
theorem c7_counterexample :
    Line.restart ∈ workerLoop tRoot 4096 [(Cmd.exitCmd, 0)] := by
  decide

/-- C7 (amended): on receiving `exit` the worker terminates its main loop —
it serves no further command — and then writes exactly one trailing
`restart` line (the unconditional post-loop write, which the coordinator,
having sent `exit` and returned, never reads). -/
theorem c7_exit_terminates {t : AttrValue} {lim : Nat} :
    ∀ (pre rest : List (Cmd × Nat)) (m : Nat), (∀ q ∈ pre, underLimit lim q) →
    workerLoop t lim (pre ++ (Cmd.exitCmd, m) :: rest)
      = linesOf t pre ++ [Line.next, Line.restart] := by
  intro pre rest m hpre
  rw [workerLoop_served hpre, workerLoop_exit]

/-- C7 witness: the amended theorem instantiated on an immediate `exit`. -/
theorem c7_witness :
    workerLoop tRoot 4096 ([] ++ (Cmd.exitCmd, 0) :: [])
      = linesOf tRoot [] ++ [Line.next, Line.restart] :=
  c7_exit_terminates [] [] 0 (fun q hq => absurd hq (List.not_mem_nil q))

/-- C8, counterexample: the filter checks only `'.'` and the space
character `' '` (line 210), not general whitespace: a child named with an
embedded tab is reported in the `attrs` reply — identifiers containing
(non-space) whitespace are NOT excluded. -/
theorem c8_counterexample : evalReply tTab "" = Reply.attrs ["a\tb"] := by
  decide

/-- C8 (amended): when a dispatched path resolves to an attribute set, the
reply's identifiers contain neither `'.'` nor `' '` (such children are
dropped); every path ever inserted into `todo` is the root or a dot-join
with a legal identifier (so a child like `b.bad` is never inserted); and in
the concrete Scenario B run, the output contains only `"a"` — `b.bad` is
silently dropped (no key, no error entry) and the empty attribute set `c`
contributes nothing. -/
theorem c8_illegal_names_dropped {t : AttrValue} :
    (∀ (p : String) (ns : List String), evalReply t p = Reply.attrs ns →
      ∀ m ∈ ns, '.' ∉ m.data ∧ ' ' ∉ m.data) ∧
    (∀ (n : Nat) (tr : List Label) (s : GState),
      runFrom t (initState n) tr = some s → ∀ q ∈ s.todo, okShape q) ∧
    (runFrom tScenB (initState 1) trScenB = some sScenB ∧
      sScenB.jobs = [("a", Entry.jobE "drvA")] ∧ allDone sScenB ∧
      sScenB.exc = none ∧ lookupE "b.bad" sScenB.jobs = none) := by
  refine ⟨?_, ?_, by decide, by decide, by decide, by decide, by decide⟩
  · intro p ns hre m hm
    have hok := names_ok hre m hm
    exact ⟨okName_no_dot hok, okName_no_space hok⟩
  · intro n tr s hr
    exact todo_shape_run hr

/-- C8 witness: the amended theorem instantiated on the Scenario B tree. -/
theorem c8_witness :
    ('.' ∉ "a".data ∧ ' ' ∉ "a".data) ∧ sScenB.jobs = [("a", Entry.jobE "drvA")] := by
  have h := @c8_illegal_names_dropped tScenB
  exact ⟨h.1 "" ["a", "c"] (by decide) "a" (by decide), h.2.2.2.1⟩

/-- C9: a run in which some thread's dispatch fails fatally (worker exited
with no parseable response, or an out-of-protocol line) ends with the
fatal error recorded: the single `exc` cell is set, the process exit code
is non-zero, and the driver emits the error instead of the result mapping —
all partially collected results are discarded. -/
theorem c9_worker_crash_fatal {t : AttrValue} {n : Nat} {tr1 tr2 : List Label}
    {i : Nat} {e : String} {s : GState}
    (hr : runFrom t (initState n) (tr1 ++ Label.fail i e :: tr2) = some s) :
    s.exc ≠ none ∧ driverOutput s = Except.error ((s.exc).getD "") ∧
      exitCode s = 1 ∧ ∀ out, driverOutput s ≠ Except.ok out := by
  rw [runFrom_append] at hr
  cases hmid : runFrom t (initState n) tr1 with
  | none => rw [hmid] at hr; cases hr
  | some s1 =>
    rw [hmid] at hr
    simp only [Option.some_bind] at hr
    rw [runFrom] at hr
    cases hstep : stepFn t s1 (.fail i e) with
    | none => rw [hstep] at hr; cases hr
    | some s2 =>
      rw [hstep] at hr
      obtain ⟨_, rfl⟩ := step_fail_eq hstep
      have hexc : s.exc ≠ none := run_exc_mono hr (by simp)
      refine ⟨hexc, ?_, ?_, ?_⟩
      · cases hse : s.exc with
        | none => exact absurd hse hexc
        | some e2 => rw [driverOutput, hse]; rfl
      · cases hse : s.exc with
        | none => exact absurd hse hexc
        | some e2 => rw [exitCode, hse]
      · intro out hout
        cases hse : s.exc with
        | none => exact absurd hse hexc
        | some e2 => rw [driverOutput, hse] at hout; cases hout

/-- C9 witness: the theorem instantiated on a concrete mid-dispatch worker
death. -/
theorem c9_witness : sFail.exc ≠ none ∧ exitCode sFail = 1 := by
  have h := @c9_worker_crash_fatal tRoot 1 [Label.claim 0] [] 0 "worker died"
    sFail (by decide)
  exact ⟨h.1, h.2.2.1⟩

/-- C10: a worker writes `restart` only as the very last line of its trace,
after the structured reply for its current `do` (the memory check follows
the reply); in slot sessions every dispatched path is immediately answered
by the same instance, and `restart` is only ever read right after a
completed reply — at the readiness check — so a memory-triggered restart
never interrupts a dispatched path. -/
theorem c10_restart_never_interrupts {t : AttrValue} {lim : Nat} :
    (∀ (mem : Nat → Nat → Nat) (ps : List String),
      dispatchAnswered t (slotRun t lim mem ps) = true ∧
      restartAfterReply (slotRun t lim mem ps) = true) ∧
    (∀ cmds : List (Cmd × Nat), restartOnlyAtEnd (workerLoop t lim cmds) = true) := by
  constructor
  · intro mem ps
    constructor
    · rw [slotRun]
      simp [dispatchAnswered, dispatchAnswered_slotSteps ps 0 0]
    · rw [slotRun]
      simp [restartAfterReply, restartAfterReply_slotSteps ps 0 0 (SEv.readNext 0)]
  · exact restartOnlyAtEnd_workerLoop

end HydraEval
